import Mathlib

/-!
Deque on a doubly linked list (Deque.h, MyMemStrategy.h)

A shallow embedding of the class template `Deque<data_t, MemStrategy>`.

* Pointers are `Option Nat`: `none` is `nullptr`, `some a` is the address `a`.
* The free store is a partial map from addresses to `elem` blocks.  Reading or
  writing through `nullptr` or through an address that holds no live block is
  undefined behaviour and is reported as `Res.undef`.
* A `Deque` object is the pair of its `head` and `tail` pointers; objects are
  identified by a number (their own address), so that `&other == this` is a
  comparison of identities.
* `malloc` is external.  Its answers are taken from `World.supply`, in call
  order; `none` (or an exhausted supply) is the failure indicator.
* Loops that follow `next` links take a fuel argument; running out of fuel is
  reported as `Res.timeout`.
-/

namespace DequeModel

/-- A pointer to a list element: `none` is `nullptr`. -/
abbrev Ptr := Option Nat

/-- Class `elem`: one list element (Deque.h, lines 23-28). -/
structure elem (α : Type) where
  data : α
  next : Ptr
  prev : Ptr
deriving DecidableEq, Repr

/-- The attributes `head` and `tail` of a deque object (Deque.h, lines 32-33).
The attribute `ms` is a `MyMemStrategy`, which has no fields. -/
structure Deque where
  head : Ptr
  tail : Ptr
deriving DecidableEq, Repr

/-- The program state: the free store, the deque objects, and the answers
`malloc` is going to give. -/
structure World (α : Type) where
  cell : Nat → Option (elem α)
  obj : Nat → Deque
  supply : List Ptr

/-- Outcome of a member function: normal return with a value, an exception of
type `int` leaving the function, undefined behaviour, or fuel exhausted. -/
inductive Res (α : Type) (β : Type) where
  | done : β → World α → Res α β
  | thrown : Int → World α → Res α β
  | undef : Res α β
  | timeout : Res α β

/-- The largest value of `int` (32 bits). -/
def INT_MAX : Int := 2147483647

section Code

variable {α : Type}

/-- `MyMemStrategy::memMalloc` (MyMemStrategy.h, line 21): the next answer of
`malloc`. -/
def memMalloc (w : World α) : Ptr × World α :=
  match w.supply with
  | [] => (none, w)
  | r :: rest => (r, { w with supply := rest })

/-- `MyMemStrategy::memFree` (MyMemStrategy.h, line 27): `free(nullptr)` does
nothing; freeing an address that holds no live block is undefined. -/
def memFree (w : World α) (p : Ptr) : Option (World α) :=
  match p with
  | none => some w
  | some a =>
    match w.cell a with
    | none => none
    | some _ => some { w with cell := Function.update w.cell a none }

/-- Default constructor (Deque.h, line 46). -/
def ctorDefault (w : World α) (this : Nat) : Res α Unit :=
  .done () { w with obj := Function.update w.obj this ⟨none, none⟩ }

/-- `pushHead(data_t const&)` (Deque.h, lines 134-154). -/
def pushHead (w : World α) (this : Nat) (data : α) : Res α Unit :=
  match memMalloc w with
  | (none, w1) => .thrown (-1) w1
  | (some newElem, w1) =>
    let d := w1.obj this
    let w2 : World α :=
      { w1 with cell := Function.update w1.cell newElem (some ⟨data, d.head, none⟩) }
    match d.head with
    | none =>
      .done () { w2 with obj := Function.update w2.obj this ⟨some newElem, some newElem⟩ }
    | some hd =>
      match w2.cell hd with
      | none => .undef
      | some e =>
        .done () { w2 with
          cell := Function.update w2.cell hd (some { e with prev := some newElem })
          obj := Function.update w2.obj this ⟨some newElem, d.tail⟩ }

/-- `pushHead(data_t&&)` (Deque.h, lines 163-184). -/
def pushHeadMove (w : World α) (this : Nat) (data : α) : Res α Unit :=
  match memMalloc w with
  | (none, w1) => .thrown (-1) w1
  | (some newElem, w1) =>
    let d := w1.obj this
    let w2 : World α :=
      { w1 with cell := Function.update w1.cell newElem (some ⟨data, d.head, none⟩) }
    match d.head with
    | none =>
      .done () { w2 with obj := Function.update w2.obj this ⟨some newElem, some newElem⟩ }
    | some hd =>
      match w2.cell hd with
      | none => .undef
      | some e =>
        .done () { w2 with
          cell := Function.update w2.cell hd (some { e with prev := some newElem })
          obj := Function.update w2.obj this ⟨some newElem, d.tail⟩ }

/-- `pushTail(data_t const&)` (Deque.h, lines 193-213). -/
def pushTail (w : World α) (this : Nat) (data : α) : Res α Unit :=
  match memMalloc w with
  | (none, w1) => .thrown (-1) w1
  | (some newElem, w1) =>
    let d := w1.obj this
    let w2 : World α :=
      { w1 with cell := Function.update w1.cell newElem (some ⟨data, none, d.tail⟩) }
    match d.tail with
    | none =>
      .done () { w2 with obj := Function.update w2.obj this ⟨some newElem, some newElem⟩ }
    | some tl =>
      match w2.cell tl with
      | none => .undef
      | some e =>
        .done () { w2 with
          cell := Function.update w2.cell tl (some { e with next := some newElem })
          obj := Function.update w2.obj this ⟨d.head, some newElem⟩ }

/-- `pushTail(data_t&&)` (Deque.h, lines 222-242). -/
def pushTailMove (w : World α) (this : Nat) (data : α) : Res α Unit :=
  match memMalloc w with
  | (none, w1) => .thrown (-1) w1
  | (some newElem, w1) =>
    let d := w1.obj this
    let w2 : World α :=
      { w1 with cell := Function.update w1.cell newElem (some ⟨data, none, d.tail⟩) }
    match d.tail with
    | none =>
      .done () { w2 with obj := Function.update w2.obj this ⟨some newElem, some newElem⟩ }
    | some tl =>
      match w2.cell tl with
      | none => .undef
      | some e =>
        .done () { w2 with
          cell := Function.update w2.cell tl (some { e with next := some newElem })
          obj := Function.update w2.obj this ⟨d.head, some newElem⟩ }

/-- `popHead()` (Deque.h, lines 254-262).  The test `head == nullptr` only
writes to `std::cerr`; control continues with `head->next`. -/
def popHead (w : World α) (this : Nat) : Res α Unit :=
  let d := w.obj this
  match d.head with
  | none => .undef
  | some hd =>
    match w.cell hd with
    | none => .undef
    | some e =>
      let tmp := e.next
      match memFree w (some hd) with
      | none => .undef
      | some w1 =>
        match tmp with
        | none => .undef
        | some t =>
          match w1.cell t with
          | none => .undef
          | some et =>
            .done () { w1 with
              cell := Function.update w1.cell t (some { et with prev := none })
              obj := Function.update w1.obj this ⟨some t, d.tail⟩ }

/-- `popTail()` (Deque.h, lines 267-275). -/
def popTail (w : World α) (this : Nat) : Res α Unit :=
  let d := w.obj this
  match d.tail with
  | none => .undef
  | some tl =>
    match w.cell tl with
    | none => .undef
    | some e =>
      let tmp := e.prev
      match memFree w (some tl) with
      | none => .undef
      | some w1 =>
        match tmp with
        | none => .undef
        | some t =>
          match w1.cell t with
          | none => .undef
          | some et =>
            .done () { w1 with
              cell := Function.update w1.cell t (some { et with next := none })
              obj := Function.update w1.obj this ⟨d.head, some t⟩ }

/-- `getHead()` (Deque.h, lines 288-292). -/
def getHead (w : World α) (this : Nat) : Res α α :=
  match (w.obj this).head with
  | none => .undef
  | some hd =>
    match w.cell hd with
    | none => .undef
    | some e => .done e.data w

/-- `getTail()` (Deque.h, lines 298-302). -/
def getTail (w : World α) (this : Nat) : Res α α :=
  match (w.obj this).tail with
  | none => .undef
  | some tl =>
    match w.cell tl with
    | none => .undef
    | some e => .done e.data w

/-- `isEmpty()` (Deque.h, line 315). -/
def isEmpty (w : World α) (this : Nat) : Res α Bool :=
  .done ((w.obj this).head == none) w

/-- The loop of `size()` (Deque.h, lines 325-328); `count++` on `INT_MAX` is a
signed overflow. -/
def sizeLoop (w : World α) : Nat → Ptr → Int → Res α Int
  | 0, _, _ => .timeout
  | _ + 1, none, count => .done count w
  | fuel + 1, some a, count =>
    if count = INT_MAX then .undef
    else
      match w.cell a with
      | none => .undef
      | some e => sizeLoop w fuel e.next (count + 1)

/-- `size()` (Deque.h, lines 321-331). -/
def size (fuel : Nat) (w : World α) (this : Nat) : Res α Int :=
  sizeLoop w fuel (w.obj this).head 0

/-- The loop of `str()` (Deque.h, lines 362-365); `render` is `operator<<` of
`data_t` and `ss` is what the stream holds so far. -/
def strLoop (render : α → String) (w : World α) : Nat → Ptr → String → Res α String
  | 0, _, _ => .timeout
  | _ + 1, none, ss => .done (ss ++ ">") w
  | fuel + 1, some a, ss =>
    match w.cell a with
    | none => .undef
    | some e => strLoop render w fuel e.next (ss ++ render e.data ++ " ")

/-- `str()` (Deque.h, lines 356-369). -/
def str (render : α → String) (fuel : Nat) (w : World α) (this : Nat) : Res α String :=
  strLoop render w fuel (w.obj this).head "< "

/-- The loop of `clear()` (Deque.h, lines 110-114), followed by
`tail = nullptr`. -/
def clearLoop (this : Nat) : Nat → World α → Res α Unit
  | 0, _ => .timeout
  | fuel + 1, w =>
    match (w.obj this).head with
    | none =>
      .done () { w with obj := Function.update w.obj this ⟨none, none⟩ }
    | some hd =>
      match w.cell hd with
      | none => .undef
      | some e =>
        match memFree w (some hd) with
        | none => .undef
        | some w1 =>
          clearLoop this fuel
            { w1 with obj := Function.update w1.obj this ⟨e.next, (w1.obj this).tail⟩ }

/-- `clear()` (Deque.h, lines 107-117). -/
def clear (fuel : Nat) (w : World α) (this : Nat) : Res α Unit :=
  clearLoop this fuel w

/-- The loop of the initializer list constructor (Deque.h, lines 54-61):
`catch (int)` returns from the constructor. -/
def initLoop (this : Nat) : World α → List α → Res α Unit
  | w, [] => .done () w
  | w, e :: es =>
    match pushTail w this e with
    | .done _ w1 => initLoop this w1 es
    | .thrown _ w1 => .done () w1
    | .undef => .undef
    | .timeout => .timeout

/-- Initializer list constructor (Deque.h, lines 52-62). -/
def ctorInitList (w : World α) (this : Nat) (elems : List α) : Res α Unit :=
  initLoop this { w with obj := Function.update w.obj this ⟨none, none⟩ } elems

/-- The loop shared by the copy constructor (Deque.h, lines 70-78) and copy
assignment (lines 390-398): `pushTail(tmp->data)`, then `tmp = tmp->next`. -/
def copyLoop (this : Nat) : Nat → World α → Ptr → Res α Unit
  | 0, _, _ => .timeout
  | _ + 1, w, none => .done () w
  | fuel + 1, w, some a =>
    match w.cell a with
    | none => .undef
    | some e =>
      match pushTail w this e.data with
      | .done _ w1 =>
        match w1.cell a with
        | none => .undef
        | some e1 => copyLoop this fuel w1 e1.next
      | .thrown _ w1 => .done () w1
      | .undef => .undef
      | .timeout => .timeout

/-- Copy constructor (Deque.h, lines 68-79). -/
def ctorCopy (fuel : Nat) (w : World α) (this other : Nat) : Res α Unit :=
  let w0 : World α := { w with obj := Function.update w.obj this ⟨none, none⟩ }
  copyLoop this fuel w0 (w0.obj other).head

/-- The four assignments shared by the move constructor (Deque.h, lines 86-89)
and move assignment (lines 414-417): `this->head = other.head`,
`this->tail = other.tail`, `other.head = nullptr`, `other.tail = nullptr`. -/
def moveEnds (w0 : World α) (this other : Nat) : World α :=
  let w1 : World α :=
    { w0 with obj := Function.update w0.obj this ⟨(w0.obj other).head, (w0.obj this).tail⟩ }
  let w2 : World α :=
    { w1 with obj := Function.update w1.obj this ⟨(w1.obj this).head, (w1.obj other).tail⟩ }
  let w3 : World α :=
    { w2 with obj := Function.update w2.obj other ⟨none, (w2.obj other).tail⟩ }
  { w3 with obj := Function.update w3.obj other ⟨(w3.obj other).head, none⟩ }

/-- Move constructor (Deque.h, lines 85-90). -/
def ctorMove (w : World α) (this other : Nat) : Res α Unit :=
  .done () (moveEnds { w with obj := Function.update w.obj this ⟨none, none⟩ } this other)

/-- Copy assignment (Deque.h, lines 382-401). -/
def assignCopy (fuel : Nat) (w : World α) (this other : Nat) : Res α Unit :=
  if other = this then .done () w
  else
    match clear fuel w this with
    | .done _ w1 => copyLoop this fuel w1 (w1.obj other).head
    | .thrown n w1 => .thrown n w1
    | .undef => .undef
    | .timeout => .timeout

/-- Move assignment (Deque.h, lines 407-420). -/
def assignMove (fuel : Nat) (w : World α) (this other : Nat) : Res α Unit :=
  if other = this then .done () w
  else
    match clear fuel w this with
    | .done _ w0 => .done () (moveEnds w0 this other)
    | .thrown n w1 => .thrown n w1
    | .undef => .undef
    | .timeout => .timeout

end Code

section Shape

variable {α : Type}

/-- Address of the first node of `ns`, or `nxt` when there is none. -/
def firstOf : List (Nat × α) → Ptr → Ptr
  | [], nxt => nxt
  | (a, _) :: _, _ => some a

/-- Address of the last node of `ns`, or `prev` when there is none. -/
def lastOf : List (Nat × α) → Ptr → Ptr
  | [], prev => prev
  | (a, _) :: rest, _ => lastOf rest (some a)

/-- The nodes `ns` (address and value, head to tail) are live blocks linked in
both directions: each holds its value, its `next` is the following node (`nxt`
after the last one) and its `prev` is the preceding node (`prev` before the
first one). -/
def Links (c : Nat → Option (elem α)) : Ptr → List (Nat × α) → Ptr → Prop
  | _, [], _ => True
  | prev, (a, v) :: rest, nxt =>
    c a = some ⟨v, firstOf rest nxt, prev⟩ ∧ Links c (some a) rest nxt

/-- The deque object `this` is well formed in `w` with the nodes `ns`: `head`
and `tail` are the two ends (both `nullptr` when there is no node), the nodes
form a doubly linked chain closed by `nullptr` at both ends, and no node occurs
twice. -/
structure WF (w : World α) (this : Nat) (ns : List (Nat × α)) : Prop where
  head_eq : (w.obj this).head = firstOf ns none
  tail_eq : (w.obj this).tail = lastOf ns none
  links : Links w.cell none ns none
  nodup : (ns.map Prod.fst).Nodup

/-- Whether a given list of nodes is linked can be computed. -/
instance Links.decidable [DecidableEq α] (c : Nat → Option (elem α)) :
    ∀ (prev : Ptr) (ns : List (Nat × α)) (nxt : Ptr), Decidable (Links c prev ns nxt)
  | _, [], _ => isTrue trivial
  | prev, (a, v) :: rest, nxt =>
    @instDecidableAnd (c a = some ⟨v, firstOf rest nxt, prev⟩) (Links c (some a) rest nxt)
      inferInstance (Links.decidable c (some a) rest nxt)

/-- Whether a deque object is well formed with a given list of nodes can be
computed. -/
instance WF.decidable [DecidableEq α] (w : World α) (this : Nat) (ns : List (Nat × α)) :
    Decidable (WF w this ns) :=
  if h1 : (w.obj this).head = firstOf ns none then
    if h2 : (w.obj this).tail = lastOf ns none then
      if h3 : Links w.cell none ns none then
        if h4 : (ns.map Prod.fst).Nodup then isTrue ⟨h1, h2, h3, h4⟩
        else isFalse (fun h => h4 h.nodup)
      else isFalse (fun h => h3 h.links)
    else isFalse (fun h => h2 h.tail_eq)
  else isFalse (fun h => h1 h.head_eq)

/-- The values stored in the nodes, head to tail. -/
def contents (ns : List (Nat × α)) : List α := ns.map Prod.snd

/-- The rendering the specification describes: `"< "`, then every element
followed by one space, then `">"`. -/
def renderSpec (render : α → String) (xs : List α) : String :=
  "< " ++ String.join (xs.map (fun x => render x ++ " ")) ++ ">"

/-- Stream insertion of an `int`: its decimal numeral. -/
def renderInt (n : Int) : String := toString n

/-- Two distinct deque objects, both well formed, whose chains share no node. -/
structure Sep (w : World α) (c d : Nat) (ns ms : List (Nat × α)) : Prop where
  ne : c ≠ d
  left : WF w c ns
  right : WF w d ms
  disjoint : ∀ x, x ∈ ns.map Prod.fst → x ∉ ms.map Prod.fst

/-- Whether two deque objects are separated can be computed. -/
instance Sep.decidable [DecidableEq α] (w : World α) (c d : Nat) (ns ms : List (Nat × α)) :
    Decidable (Sep w c d ns ms) :=
  if h1 : c ≠ d then
    if h2 : WF w c ns then
      if h3 : WF w d ms then
        if h4 : ∀ x, x ∈ ns.map Prod.fst → x ∉ ms.map Prod.fst then isTrue ⟨h1, h2, h3, h4⟩
        else isFalse (fun h => h4 h.disjoint)
      else isFalse (fun h => h3 h.right)
    else isFalse (fun h => h2 h.left)
  else isFalse (fun h => h1 h.ne)

/-- A call of one of the four end operations. -/
inductive Call (α : Type) where
  | pushHead : α → Call α
  | pushTail : α → Call α
  | popHead : Call α
  | popTail : Call α

/-- Number of pushes minus number of pops in a sequence of calls. -/
def balance : List (Call α) → Int
  | [] => 0
  | .pushHead _ :: cs => balance cs + 1
  | .pushTail _ :: cs => balance cs + 1
  | .popHead :: cs => balance cs - 1
  | .popTail :: cs => balance cs - 1

/-- One call on the object `this`. -/
def call (w : World α) (this : Nat) : Call α → Res α Unit
  | .pushHead v => pushHead w this v
  | .pushTail v => pushTail w this v
  | .popHead => popHead w this
  | .popTail => popTail w this

/-- A sequence of calls on the object `this`, one after the other; the first
call that does not return normally ends the run. -/
def calls (this : Nat) : World α → List (Call α) → Res α Unit
  | w, [] => .done () w
  | w, c :: cs =>
    match call w this c with
    | .done _ w1 => calls this w1 cs
    | r => r

/-- An operation applied to one deque object. -/
inductive Op (α : Type) where
  | pushHead : α → Op α
  | pushHeadMove : α → Op α
  | pushTail : α → Op α
  | pushTailMove : α → Op α
  | popHead : Op α
  | popTail : Op α
  | clear : Op α
  | moveInto : Nat → Op α
  | moveAssignInto : Nat → Op α
  | moveAssignFrom : Nat → Op α

/-- The call an `Op` stands for, on the object `this`: `moveInto e` move-constructs
the object `e` from `this`, `moveAssignInto e` is `e = std::move(this)` and
`moveAssignFrom e` is `this = std::move(e)`. -/
def applyOp (fuel : Nat) (w : World α) (this : Nat) : Op α → Res α Unit
  | .pushHead v => pushHead w this v
  | .pushHeadMove v => pushHeadMove w this v
  | .pushTail v => pushTail w this v
  | .pushTailMove v => pushTailMove w this v
  | .popHead => popHead w this
  | .popTail => popTail w this
  | .clear => clear fuel w this
  | .moveInto e => ctorMove w e this
  | .moveAssignInto e => assignMove fuel w e this
  | .moveAssignFrom e => assignMove fuel w this e

/-- What an operation on the deque `c` (nodes `ns`) needs from its surroundings
when `d` (nodes `ms`) is the other deque: `memMalloc` does not hand out a live
block, loops have fuel for the chains they walk, and a third object taking part
in a move is not `d` and, where its chain is freed or taken over, is well formed
with nodes of its own. -/
def OpPre (fuel : Nat) (w : World α) (d : Nat) (ns ms : List (Nat × α)) : Op α → Prop
  | .pushHead _ => ∀ a rest, w.supply = some a :: rest → w.cell a = none
  | .pushHeadMove _ => ∀ a rest, w.supply = some a :: rest → w.cell a = none
  | .pushTail _ => ∀ a rest, w.supply = some a :: rest → w.cell a = none
  | .pushTailMove _ => ∀ a rest, w.supply = some a :: rest → w.cell a = none
  | .popHead => True
  | .popTail => True
  | .clear => ns.length < fuel
  | .moveInto e => e ≠ d
  | .moveAssignInto e =>
    e ≠ d ∧ ∃ es : List (Nat × α), WF w e es ∧ es.length < fuel ∧
      ∀ x, x ∈ es.map Prod.fst → x ∉ ms.map Prod.fst
  | .moveAssignFrom e =>
    e ≠ d ∧ ns.length < fuel ∧ ∃ es : List (Nat × α), WF w e es ∧
      (∀ x, x ∈ es.map Prod.fst → x ∉ ms.map Prod.fst) ∧
      (∀ x, x ∈ es.map Prod.fst → x ∉ ns.map Prod.fst)

/-- The outcome `r` of an operation on `c`, started in `w`, leaves the other
deque `d` alone: the operation returned or threw `-1` in a state where `d` is
the same object with the same blocks, still well formed with the nodes `ms`, and
`c` is well formed with nodes that are not nodes of `d`. -/
def LeavesAlone (r : Res α Unit) (w : World α) (c d : Nat) (ms : List (Nat × α)) : Prop :=
  ∃ w2, (r = .done () w2 ∨ r = .thrown (-1) w2) ∧ (∃ ns2, Sep w2 c d ns2 ms) ∧
    w2.obj d = w.obj d ∧ ∀ x, x ∈ ms.map Prod.fst → w2.cell x = w.cell x

/-- An example state: the object `0` is an empty deque, nothing is allocated. -/
def exEmpty : World Int :=
  { cell := fun _ => none
    obj := fun _ => ⟨none, none⟩
    supply := [some 1, some 2, some 3, none] }

/-- An example state: the object `0` holds `1 2 3` in the blocks `1`, `2`, `3`;
the object `1` is an empty deque. -/
def exThree : World Int :=
  { cell := fun a =>
      if a = 1 then some ⟨1, some 2, none⟩
      else if a = 2 then some ⟨2, some 3, some 1⟩
      else if a = 3 then some ⟨3, none, some 2⟩
      else none
    obj := fun o => if o = 0 then ⟨some 1, some 3⟩ else ⟨none, none⟩
    supply := [some 4, some 5, some 6, none] }

/-- The nodes of the object `0` in `exThree`. -/
def exThreeNodes : List (Nat × Int) := [(1, 1), (2, 2), (3, 3)]

/-- An example state: the object `0` holds the single element `7` in block `1`. -/
def exOne : World Int :=
  { cell := fun a => if a = 1 then some ⟨7, none, none⟩ else none
    obj := fun o => if o = 0 then ⟨some 1, some 1⟩ else ⟨none, none⟩
    supply := [some 2, none] }

/-- An example state: the object `0` holds `1 2 3` in the blocks `1`, `2`, `3`
and the object `1` holds `42 1` in the blocks `4`, `5`; `malloc` is going to
hand out block `5` again once it has been freed. -/
def exTwo : World Int :=
  { cell := fun a =>
      if a = 1 then some ⟨1, some 2, none⟩
      else if a = 2 then some ⟨2, some 3, some 1⟩
      else if a = 3 then some ⟨3, none, some 2⟩
      else if a = 4 then some ⟨42, some 5, none⟩
      else if a = 5 then some ⟨1, none, some 4⟩
      else none
    obj := fun o =>
      if o = 0 then ⟨some 1, some 3⟩ else if o = 1 then ⟨some 4, some 5⟩ else ⟨none, none⟩
    supply := [some 5, some 6, some 7, some 8, none] }

/-- The nodes of the object `1` in `exTwo`. -/
def exTwoNodes : List (Nat × Int) := [(4, 42), (5, 1)]

/-- The state after copy-constructing the object `1` from the object `0` in
`exThree`. -/
def exCopied : World Int :=
  match ctorCopy 4 exThree 1 0 with
  | .done _ w => w
  | _ => exThree

/-- Whether the next call of `memMalloc` returns the failure indicator, given
the answers `malloc` is going to give. -/
def failsNext : List Ptr → Bool
  | [] => true
  | none :: _ => true
  | some _ :: _ => false

/-- An example state: the object `0` holds `666 42 1 9` in the blocks `1` to `4`. -/
def exFour : World Int :=
  { cell := fun a =>
      if a = 1 then some ⟨666, some 2, none⟩
      else if a = 2 then some ⟨42, some 3, some 1⟩
      else if a = 3 then some ⟨1, some 4, some 2⟩
      else if a = 4 then some ⟨9, none, some 3⟩
      else none
    obj := fun o => if o = 0 then ⟨some 1, some 4⟩ else ⟨none, none⟩
    supply := [some 5, none] }

/-- The nodes of the object `0` in `exFour`. -/
def exFourNodes : List (Nat × Int) := [(1, 666), (2, 42), (3, 1), (4, 9)]

/-- Following `next`-links from `p` meets exactly the nodes `ns` (address and
value, in this order) and then `nullptr`. -/
def Fwd (c : Nat → Option (elem α)) : Ptr → List (Nat × α) → Prop
  | p, [] => p = none
  | p, (a, v) :: rest => p = some a ∧ ∃ e, c a = some e ∧ e.data = v ∧ Fwd c e.next rest

/-- The linkage invariant in the words of the specification, for the deque
object `this` whose nodes, met by following `next`-links from `head`, are `ns`:
`tail` is the last of them (`nullptr` when there is none); the `prev`-link of
the head node and the `next`-link of the tail node are `nullptr`; for every node
`n` with a `next`-link, `n.next.prev == n`; for every node `n` with a
`prev`-link, `n.prev.next == n`; and no node is met twice. -/
structure Linkage (w : World α) (this : Nat) (ns : List (Nat × α)) : Prop where
  chain : Fwd w.cell (w.obj this).head ns
  tail_last : (w.obj this).tail = lastOf ns none
  head_prev : ∀ h e, (w.obj this).head = some h → w.cell h = some e → e.prev = none
  tail_next : ∀ t e, (w.obj this).tail = some t → w.cell t = some e → e.next = none
  next_prev : ∀ n e m, n ∈ ns.map Prod.fst → w.cell n = some e → e.next = some m →
    ∃ em, w.cell m = some em ∧ em.prev = some n
  prev_next : ∀ n e m, n ∈ ns.map Prod.fst → w.cell n = some e → e.prev = some m →
    ∃ em, w.cell m = some em ∧ em.next = some n
  acyclic : (ns.map Prod.fst).Nodup

/-- The allocator behaves during the next operation: the blocks `malloc` hands
out before it next fails (or runs out of answers) are distinct and none of them
is live. -/
def Sane (cell : Nat → Option (elem α)) (sup : List Ptr) : Prop :=
  ∃ (as : List Nat) (tl : List Ptr), sup = as.map some ++ tl ∧ as.Nodup ∧
    (∀ a ∈ as, cell a = none) ∧ failsNext tl = true

/-- The deque objects `ids` are all well formed, `nodes o` being the nodes of
the object `o`, and no two of them have a node in common. -/
structure Inv (w : World α) (ids : List Nat) (nodes : Nat → List (Nat × α)) : Prop where
  wf : ∀ o, o ∈ ids → WF w o (nodes o)
  sep : ∀ o, o ∈ ids → ∀ o', o' ∈ ids → o ≠ o' →
    ∀ x, x ∈ (nodes o).map Prod.fst → x ∉ (nodes o').map Prod.fst

/-- The operations on one object that involve no other object: the pushes, the
pops and `clear()`. -/
def Op.isEnd : Op α → Bool
  | .moveInto _ => false
  | .moveAssignInto _ => false
  | .moveAssignFrom _ => false
  | _ => true

/-- The states that can be reached, together with the deque objects that have
been constructed in them.  At the start no deque object exists.  An object is
constructed in storage that holds no other deque object: by the default
constructor, the initializer list constructor, or by copy or move from an
existing object.  On existing objects the pushes (which return or throw), the
pops and `clear()` (which return), and copy and move assignment (which return)
are called.  What `malloc` is going to answer may change at any time, and during
an operation that allocates the allocator behaves (for copy assignment: after
the old nodes have been freed). -/
inductive Reach : World α → List Nat → Prop where
  | start (w : World α) : Reach w []
  | resupply {w : World α} {ids : List Nat} (sup : List Ptr) :
    Reach w ids → Reach { w with supply := sup } ids
  | construct {w w' : World α} {ids : List Nat} {o : Nat} :
    Reach w ids → o ∉ ids → ctorDefault w o = .done () w' → Reach w' (o :: ids)
  | constructList {w w' : World α} {ids : List Nat} {o : Nat} (elems : List α) :
    Reach w ids → o ∉ ids → Sane w.cell w.supply →
    ctorInitList w o elems = .done () w' → Reach w' (o :: ids)
  | constructCopy {w w' : World α} {ids : List Nat} {o d : Nat} (fuel : Nat) :
    Reach w ids → o ∉ ids → d ∈ ids → Sane w.cell w.supply →
    ctorCopy fuel w o d = .done () w' → Reach w' (o :: ids)
  | constructMove {w w' : World α} {ids : List Nat} {o d : Nat} :
    Reach w ids → o ∉ ids → d ∈ ids →
    ctorMove w o d = .done () w' → Reach w' (o :: ids)
  | endOp {w w' : World α} {ids : List Nat} {o : Nat} (fuel : Nat) (op : Op α) (n : Int) :
    Reach w ids → o ∈ ids → op.isEnd = true → Sane w.cell w.supply →
    (applyOp fuel w o op = .done () w' ∨ applyOp fuel w o op = .thrown n w') →
    Reach w' ids
  | copyAssign {w w' : World α} {ids : List Nat} {o d : Nat} (fuel : Nat) :
    Reach w ids → o ∈ ids → d ∈ ids →
    (∀ w1, clear fuel w o = .done () w1 → Sane w1.cell w1.supply) →
    assignCopy fuel w o d = .done () w' → Reach w' ids
  | moveAssign {w w' : World α} {ids : List Nat} {o d : Nat} (fuel : Nat) :
    Reach w ids → o ∈ ids → d ∈ ids →
    assignMove fuel w o d = .done () w' → Reach w' ids

/-- An example state: the object `0` has been default-constructed in `exEmpty`. -/
def exBuilt : World Int :=
  { exEmpty with obj := Function.update exEmpty.obj 0 ⟨none, none⟩ }

/-- An example state: `42` has been pushed to the head of the object `0` of
`exBuilt`. -/
def exPushed : World Int :=
  match pushHead exBuilt 0 42 with
  | .done _ w => w
  | _ => exBuilt

end Shape

section Lemmas

variable {α : Type}

theorem pushHeadMove_eq (w : World α) (this : Nat) (v : α) :
    pushHeadMove w this v = pushHead w this v := rfl

theorem pushTailMove_eq (w : World α) (this : Nat) (v : α) :
    pushTailMove w this v = pushTail w this v := rfl

theorem lastOf_append_single (ns : List (Nat × α)) (a : Nat) (v : α) (p : Ptr) :
    lastOf (ns ++ [(a, v)]) p = some a := by
  induction ns generalizing p with
  | nil => rfl
  | cons x xs ih => obtain ⟨b, u⟩ := x; exact ih (some b)

theorem firstOf_append_single (ns : List (Nat × α)) (a : Nat) (v : α) (p : Ptr) :
    firstOf (ns ++ [(a, v)]) p = firstOf ns (some a) := by
  cases ns with
  | nil => rfl
  | cons x xs => obtain ⟨b, u⟩ := x; rfl

/-- Every node of a linked chain is a live block. -/
theorem Links.live {c : Nat → Option (elem α)} {prev nxt : Ptr} {ns : List (Nat × α)}
    (h : Links c prev ns nxt) {x : Nat} (hx : x ∈ ns.map Prod.fst) : c x ≠ none := by
  induction ns generalizing prev with
  | nil => simp at hx
  | cons y ys ih =>
    obtain ⟨b, u⟩ := y
    obtain ⟨hb, hrest⟩ := h
    simp only [List.map_cons, List.mem_cons] at hx
    rcases hx with rfl | hx
    · simp [hb]
    · exact ih hrest hx

/-- A chain only depends on the blocks of its own nodes. -/
theorem Links.frame {c c' : Nat → Option (elem α)} {prev nxt : Ptr} {ns : List (Nat × α)}
    (h : Links c prev ns nxt) (hc : ∀ x ∈ ns.map Prod.fst, c' x = c x) :
    Links c' prev ns nxt := by
  induction ns generalizing prev with
  | nil => trivial
  | cons y ys ih =>
    obtain ⟨b, u⟩ := y
    obtain ⟨hb, hrest⟩ := h
    refine ⟨?_, ih hrest ?_⟩
    · rw [hc b (by simp), hb]
    · intro x hx
      exact hc x (by simp only [List.map_cons, List.mem_cons]; exact Or.inr hx)

/-- The last node of a non-empty chain: its address is `lastOf`, and its block
has `next = nxt`. -/
theorem Links.last_cell {c : Nat → Option (elem α)} {prev nxt : Ptr}
    {ns : List (Nat × α)} (h : Links c prev ns nxt) (hne : ns ≠ []) :
    ∃ t e, lastOf ns prev = some t ∧ t ∈ ns.map Prod.fst ∧ c t = some e ∧ e.next = nxt := by
  induction ns generalizing prev with
  | nil => exact absurd rfl hne
  | cons y ys ih =>
    obtain ⟨b, u⟩ := y
    obtain ⟨hb, hrest⟩ := h
    cases ys with
    | nil => exact ⟨b, _, rfl, by simp, hb, rfl⟩
    | cons z zs =>
      obtain ⟨t, e, h1, h2, h3, h4⟩ := ih hrest (by simp)
      exact ⟨t, e, h1, by simp only [List.map_cons, List.mem_cons] at h2 ⊢; exact Or.inr h2,
        h3, h4⟩

/-- Redirecting the `next` link of the last node of a chain. -/
theorem Links.set_next {c : Nat → Option (elem α)} {prev nxt : Ptr}
    {ns : List (Nat × α)} (h : Links c prev ns nxt) (hnd : (ns.map Prod.fst).Nodup)
    {t : Nat} {e : elem α} (ht : lastOf ns prev = some t) (hne : ns ≠ [])
    (he : c t = some e) (nxt' : Ptr) :
    Links (Function.update c t (some { e with next := nxt' })) prev ns nxt' := by
  induction ns generalizing prev with
  | nil => exact absurd rfl hne
  | cons y ys ih =>
    obtain ⟨b, u⟩ := y
    obtain ⟨hb, hrest⟩ := h
    cases ys with
    | nil =>
      simp only [lastOf, Option.some.injEq] at ht
      subst ht
      rw [hb] at he
      cases he
      exact ⟨by simp [firstOf], trivial⟩
    | cons z zs =>
      obtain ⟨d, x⟩ := z
      have hnd' : ((((d, x) :: zs).map Prod.fst)).Nodup := (List.nodup_cons.mp hnd).2
      have hbt : b ≠ t := by
        intro hbt
        obtain ⟨t', _, h1, h2, _, _⟩ := hrest.last_cell (by simp)
        have : t' = t := by
          have h3 : lastOf ((b, u) :: (d, x) :: zs) prev = some t' := h1
          rw [ht] at h3
          exact (Option.some.inj h3).symm
        subst this
        exact (List.nodup_cons.mp hnd).1 (hbt ▸ h2)
      refine ⟨?_, ih hrest hnd' ht (by simp)⟩
      rw [Function.update_noteq hbt]
      exact hb

/-- A chain that ends with the node `(t, v)`: the part before it leads to `t`,
and the block of `t` closes the chain. -/
theorem Links.snoc_iff {c : Nat → Option (elem α)} {prev nxt : Ptr}
    {ns : List (Nat × α)} {t : Nat} {v : α} :
    Links c prev (ns ++ [(t, v)]) nxt ↔
      Links c prev ns (some t) ∧ c t = some ⟨v, nxt, lastOf ns prev⟩ := by
  induction ns generalizing prev with
  | nil => simp [Links, firstOf, lastOf]
  | cons y ys ih =>
    obtain ⟨b, u⟩ := y
    show (c b = some ⟨u, firstOf (ys ++ [(t, v)]) nxt, prev⟩ ∧
        Links c (some b) (ys ++ [(t, v)]) nxt) ↔
      (c b = some ⟨u, firstOf ys (some t), prev⟩ ∧ Links c (some b) ys (some t)) ∧
        c t = some ⟨v, nxt, lastOf ys (some b)⟩
    rw [firstOf_append_single, ih]
    tauto

/-- Appending one node to a chain whose last `next` link already points to it. -/
theorem Links.append_single {c : Nat → Option (elem α)} {prev : Ptr}
    {ns : List (Nat × α)} {a : Nat} {v : α} (h : Links c prev ns (some a))
    (ha : c a = some ⟨v, none, lastOf ns prev⟩) :
    Links c prev (ns ++ [(a, v)]) none := by
  induction ns generalizing prev with
  | nil => exact ⟨ha, trivial⟩
  | cons y ys ih =>
    obtain ⟨b, u⟩ := y
    obtain ⟨hb, hrest⟩ := h
    refine ⟨?_, ih hrest ha⟩
    show c b = some ⟨u, firstOf (ys ++ [(a, v)]) none, prev⟩
    rw [hb, firstOf_append_single]

/-- What a successful `pushTail` does: the new node is linked behind the old
tail, and nothing outside the deque's own chain and the new block changes. -/
theorem pushTail_spec (w : World α) (this : Nat) (v : α) (ns : List (Nat × α))
    (a : Nat) (rest : List Ptr)
    (hwf : WF w this ns) (hs : w.supply = some a :: rest) (hfresh : w.cell a = none) :
    ∃ w', pushTail w this v = .done () w' ∧ WF w' this (ns ++ [(a, v)]) ∧
      w'.supply = rest ∧ (∀ o, o ≠ this → w'.obj o = w.obj o) ∧
      (∀ x, x ≠ a → x ∉ ns.map Prod.fst → w'.cell x = w.cell x) := by
  have ha : a ∉ ns.map Prod.fst := fun hmem => hwf.links.live hmem hfresh
  have hnd : ((ns ++ [(a, v)]).map Prod.fst).Nodup := by
    rw [List.map_append, List.nodup_append]
    refine ⟨hwf.nodup, by simp, ?_⟩
    intro x hx hx'
    simp only [List.map_cons, List.map_nil, List.mem_singleton] at hx'
    exact ha (hx' ▸ hx)
  by_cases hne : ns = []
  · subst hne
    have htl : (w.obj this).tail = none := hwf.tail_eq
    simp only [pushTail, memMalloc, hs, htl]
    refine ⟨_, rfl, ⟨?_, ?_, ?_, hnd⟩, rfl, ?_, ?_⟩
    · simp [firstOf]
    · simp [lastOf]
    · simp [Links, firstOf]
    · intro o ho
      simp [Function.update_noteq ho]
    · intro x hx _
      simp [Function.update_noteq hx]
  · obtain ⟨t, e, ht, htm, hte, hen⟩ := hwf.links.last_cell hne
    have htl : (w.obj this).tail = some t := hwf.tail_eq.trans ht
    have hta : t ≠ a := fun h => ha (h ▸ htm)
    have hte' : Function.update w.cell a (some ⟨v, none, some t⟩) t = some e := by
      rw [Function.update_noteq hta, hte]
    have hl1 : Links (Function.update w.cell a (some ⟨v, none, some t⟩)) none ns none :=
      hwf.links.frame (fun x hx =>
        Function.update_noteq (show x ≠ a from fun h => ha (h ▸ hx)) _ _)
    have hl2 := hl1.set_next hwf.nodup ht hne hte' (some a)
    simp only [pushTail, memMalloc, hs, htl, hte']
    refine ⟨_, rfl, ⟨?_, ?_, ?_, hnd⟩, rfl, ?_, ?_⟩
    · simp only [Function.update_same, firstOf_append_single]
      rw [hwf.head_eq]
      cases ns with
      | nil => exact absurd rfl hne
      | cons y ys => rfl
    · simp [lastOf_append_single]
    · exact Links.append_single hl2 (by
        simp only [ht]
        rw [Function.update_noteq hta.symm, Function.update_same])
    · intro o ho
      simp [Function.update_noteq ho]
    · intro x hx hx'
      have hxt : x ≠ t := fun h => hx' (h ▸ htm)
      simp [Function.update_noteq hx, Function.update_noteq hxt]

/-- What a successful `pushHead` does: the new node is linked in front of the
old head, and nothing outside the deque's own chain and the new block changes. -/
theorem pushHead_spec (w : World α) (this : Nat) (v : α) (ns : List (Nat × α))
    (a : Nat) (rest : List Ptr)
    (hwf : WF w this ns) (hs : w.supply = some a :: rest) (hfresh : w.cell a = none) :
    ∃ w', pushHead w this v = .done () w' ∧ WF w' this ((a, v) :: ns) ∧
      w'.supply = rest ∧ (∀ o, o ≠ this → w'.obj o = w.obj o) ∧
      (∀ x, x ≠ a → x ∉ ns.map Prod.fst → w'.cell x = w.cell x) := by
  have ha : a ∉ ns.map Prod.fst := fun hmem => hwf.links.live hmem hfresh
  have hnd : (((a, v) :: ns).map Prod.fst).Nodup := List.nodup_cons.mpr ⟨ha, hwf.nodup⟩
  cases ns with
  | nil =>
    have hhd : (w.obj this).head = none := hwf.head_eq
    simp only [pushHead, memMalloc, hs, hhd]
    refine ⟨_, rfl, ⟨?_, ?_, ?_, hnd⟩, rfl, ?_, ?_⟩
    · simp [firstOf]
    · simp [lastOf]
    · simp [Links, firstOf]
    · intro o ho
      simp [Function.update_noteq ho]
    · intro x hx _
      simp [Function.update_noteq hx]
  | cons y ys =>
    obtain ⟨h, vh⟩ := y
    have hhd : (w.obj this).head = some h := hwf.head_eq
    obtain ⟨hch, hrest⟩ := hwf.links
    have hha : h ≠ a := fun e => ha (by simp [e])
    have hch' : Function.update w.cell a (some ⟨v, some h, none⟩) h
        = some ⟨vh, firstOf ys none, none⟩ := by
      rw [Function.update_noteq hha, hch]
    have hhys : h ∉ ys.map Prod.fst := (List.nodup_cons.mp hwf.nodup).1
    simp only [pushHead, memMalloc, hs, hhd, hch']
    refine ⟨_, rfl, ⟨?_, ?_, ?_, hnd⟩, rfl, ?_, ?_⟩
    · simp [firstOf]
    · simp only [Function.update_same]
      exact hwf.tail_eq
    · refine ⟨?_, ?_, ?_⟩
      · show Function.update (Function.update w.cell a _) h _ a = _
        rw [Function.update_noteq hha.symm, Function.update_same]
        rfl
      · show Function.update (Function.update w.cell a _) h _ h = _
        rw [Function.update_same]
      · refine hrest.frame (fun x hx => ?_)
        have hxh : x ≠ h := fun e => hhys (e ▸ hx)
        have hxa : x ≠ a := fun e => ha (by
          simp only [List.map_cons, List.mem_cons]
          exact Or.inr (e ▸ hx))
        show Function.update (Function.update w.cell a _) h _ x = _
        rw [Function.update_noteq hxh, Function.update_noteq hxa]
    · intro o ho
      simp [Function.update_noteq ho]
    · intro x hx hx'
      have hxh : x ≠ h := fun e => hx' (by simp [e])
      simp [Function.update_noteq hx, Function.update_noteq hxh]

theorem foldl_append_left (a b : String) (l : List String) :
    List.foldl (fun x y => x ++ y) (a ++ b) l = a ++ List.foldl (fun x y => x ++ y) b l := by
  induction l generalizing b with
  | nil => rfl
  | cons s ss ih =>
    simp only [List.foldl_cons]
    rw [String.append_assoc, ih]

/-- The loop of `str()` on a chain: it appends every element and a space, then
the closing bracket, provided the fuel exceeds the number of nodes. -/
theorem strLoop_spec (render : α → String) (w : World α) (fuel : Nat)
    (ns : List (Nat × α)) (prev : Ptr) (ss : String)
    (h : Links w.cell prev ns none) (hf : ns.length < fuel) :
    strLoop render w fuel (firstOf ns none) ss =
      .done (ss ++ String.join ((contents ns).map (fun x => render x ++ " ")) ++ ">") w := by
  induction ns generalizing prev ss fuel with
  | nil =>
    cases fuel with
    | zero => simp at hf
    | succ f => simp [strLoop, firstOf, contents, String.join]
  | cons y ys ih =>
    obtain ⟨b, u⟩ := y
    obtain ⟨hb, hrest⟩ := h
    cases fuel with
    | zero => simp at hf
    | succ f =>
      have hf' : ys.length < f := by simpa using hf
      show strLoop render w (f + 1) (some b) ss = _
      simp only [strLoop, hb]
      rw [ih f (some b) _ hrest hf']
      congr 1
      simp only [contents, List.map_cons, String.join, List.foldl_cons]
      rw [String.append_assoc ss, String.append_assoc ss]
      congr 1
      rw [← foldl_append_left]
      simp

/-- What `str()` returns on a well-formed deque, given enough fuel. -/
theorem str_spec (render : α → String) (fuel : Nat) (w : World α) (this : Nat)
    (ns : List (Nat × α)) (hwf : WF w this ns) (hf : ns.length < fuel) :
    str render fuel w this = .done (renderSpec render (contents ns)) w := by
  unfold str
  rw [hwf.head_eq]
  exact strLoop_spec render w fuel ns none "< " hwf.links hf

/-- What `popHead` does on a deque with at least two nodes: the head block is
freed, the second node becomes the head, and only these two blocks change. -/
theorem popHead_spec (w : World α) (this : Nat) (h : Nat) (vh : α) (s : Nat) (vs : α)
    (rest : List (Nat × α)) (hwf : WF w this ((h, vh) :: (s, vs) :: rest)) :
    ∃ w', popHead w this = .done () w' ∧ WF w' this ((s, vs) :: rest) ∧
      w'.supply = w.supply ∧ (∀ o, o ≠ this → w'.obj o = w.obj o) ∧
      (∀ x, x ≠ h → x ≠ s → w'.cell x = w.cell x) ∧ w'.cell h = none := by
  have hhd : (w.obj this).head = some h := hwf.head_eq
  obtain ⟨hch0, hcs, hrest⟩ := hwf.links
  have hch : w.cell h = some ⟨vh, some s, none⟩ := hch0
  have hnd := List.nodup_cons.mp hwf.nodup
  have hnd2 := List.nodup_cons.mp hnd.2
  have hsh : s ≠ h := fun e => hnd.1 (by simp [e])
  have hcs' : Function.update w.cell h none s = some ⟨vs, firstOf rest none, some h⟩ := by
    rw [Function.update_noteq hsh, hcs]
  simp only [popHead, hhd, hch, memFree, hcs']
  refine ⟨_, rfl, ⟨?_, ?_, ?_, hnd.2⟩, rfl, ?_, ?_, ?_⟩
  · simp [firstOf]
  · simp only [Function.update_same]
    exact hwf.tail_eq
  · refine ⟨?_, ?_⟩
    · show Function.update (Function.update w.cell h none) s _ s = _
      rw [Function.update_same]
    · refine hrest.frame (fun x hx => ?_)
      have hxs : x ≠ s := fun e => hnd2.1 (e ▸ hx)
      have hxh : x ≠ h := fun e => hnd.1 (by
        simp only [List.map_cons, List.mem_cons]
        exact Or.inr (e ▸ hx))
      show Function.update (Function.update w.cell h none) s _ x = _
      rw [Function.update_noteq hxs, Function.update_noteq hxh]
  · intro o ho
    simp [Function.update_noteq ho]
  · intro x hxh hxs
    simp [Function.update_noteq hxh, Function.update_noteq hxs]
  · show Function.update (Function.update w.cell h none) s _ h = _
    rw [Function.update_noteq hsh.symm, Function.update_same]

/-- What `popTail` does on a deque with at least two nodes: the tail block is
freed, the node before it becomes the tail, and only these two blocks change. -/
theorem popTail_spec (w : World α) (this : Nat) (init : List (Nat × α)) (p : Nat) (vp : α)
    (t : Nat) (vt : α) (hwf : WF w this (init ++ [(p, vp)] ++ [(t, vt)])) :
    ∃ w', popTail w this = .done () w' ∧ WF w' this (init ++ [(p, vp)]) ∧
      w'.supply = w.supply ∧ (∀ o, o ≠ this → w'.obj o = w.obj o) ∧
      (∀ x, x ≠ t → x ≠ p → w'.cell x = w.cell x) ∧ w'.cell t = none := by
  have htl : (w.obj this).tail = some t := by
    rw [hwf.tail_eq, lastOf_append_single]
  obtain ⟨hl, hct⟩ := Links.snoc_iff.mp hwf.links
  rw [lastOf_append_single] at hct
  have hnd : ((init ++ [(p, vp)]).map Prod.fst).Nodup ∧ t ∉ (init ++ [(p, vp)]).map Prod.fst := by
    have := hwf.nodup
    rw [List.map_append, List.nodup_append] at this
    refine ⟨this.1, fun hmem => this.2.2 hmem (by simp)⟩
  have hpm : p ∈ (init ++ [(p, vp)]).map Prod.fst := by simp
  have hpt : p ≠ t := fun e => hnd.2 (e ▸ hpm)
  obtain ⟨hl0, hcp⟩ := Links.snoc_iff.mp hl
  have hcp' : Function.update w.cell t none p = some ⟨vp, some t, lastOf init none⟩ := by
    rw [Function.update_noteq hpt, hcp]
  have hl1 : Links (Function.update w.cell t none) none (init ++ [(p, vp)]) (some t) :=
    hl.frame (fun x hx => Function.update_noteq (show x ≠ t from fun e => hnd.2 (e ▸ hx)) _ _)
  have hl2 := hl1.set_next hnd.1 (lastOf_append_single init p vp none) (by simp) hcp' none
  simp only [popTail, htl, hct, memFree, hcp']
  refine ⟨_, rfl, ⟨?_, ?_, hl2, hnd.1⟩, rfl, ?_, ?_, ?_⟩
  · simp only [Function.update_same]
    rw [hwf.head_eq, firstOf_append_single]
    cases init with
    | nil => rfl
    | cons y ys => obtain ⟨b, u⟩ := y; rfl
  · simp [lastOf_append_single]
  · intro o ho
    simp [Function.update_noteq ho]
  · intro x hxt hxp
    simp [Function.update_noteq hxt, Function.update_noteq hxp]
  · show Function.update (Function.update w.cell t none) p _ t = _
    rw [Function.update_noteq hpt.symm, Function.update_same]

/-- On a deque with exactly one node `popHead` frees the node and then writes
`tmp->prev` through `tmp == nullptr`. -/
theorem popHead_single (w : World α) (this : Nat) (a : Nat) (v : α)
    (hwf : WF w this [(a, v)]) : popHead w this = .undef := by
  have hhd : (w.obj this).head = some a := hwf.head_eq
  have hc : w.cell a = some ⟨v, none, none⟩ := hwf.links.1
  simp [popHead, hhd, hc, memFree]

/-- On a deque with exactly one node `popTail` frees the node and then writes
`tmp->next` through `tmp == nullptr`. -/
theorem popTail_single (w : World α) (this : Nat) (a : Nat) (v : α)
    (hwf : WF w this [(a, v)]) : popTail w this = .undef := by
  have htl : (w.obj this).tail = some a := hwf.tail_eq
  have hc : w.cell a = some ⟨v, none, none⟩ := hwf.links.1
  simp [popTail, htl, hc, memFree]

/-- On an empty deque `popHead` reads `head->next` through `nullptr`. -/
theorem popHead_empty (w : World α) (this : Nat) (hwf : WF w this []) :
    popHead w this = .undef := by
  have hhd : (w.obj this).head = none := hwf.head_eq
  simp [popHead, hhd]

/-- On an empty deque `popTail` reads `tail->prev` through `nullptr`. -/
theorem popTail_empty (w : World α) (this : Nat) (hwf : WF w this []) :
    popTail w this = .undef := by
  have htl : (w.obj this).tail = none := hwf.tail_eq
  simp [popTail, htl]

/-- The loop of the initializer list constructor with enough fresh blocks:
every element is appended, in order. -/
theorem initLoop_spec (this : Nat) (elems : List α) (w : World α) (ms : List (Nat × α))
    (as : List Nat) (rest : List Ptr)
    (hwf : WF w this ms) (hs : w.supply = as.map some ++ rest)
    (hlen : as.length = elems.length) (hnd : as.Nodup)
    (hfresh : ∀ a ∈ as, w.cell a = none) :
    ∃ w', initLoop this w elems = .done () w' ∧ WF w' this (ms ++ as.zip elems) ∧
      w'.supply = rest ∧ (∀ o, o ≠ this → w'.obj o = w.obj o) ∧
      (∀ x, x ∉ as → x ∉ ms.map Prod.fst → w'.cell x = w.cell x) := by
  induction elems generalizing w ms as with
  | nil =>
    have has : as = [] := List.length_eq_zero.mp hlen
    subst has
    exact ⟨w, rfl, by simpa using hwf, by simpa using hs, fun _ _ => rfl, fun _ _ _ => rfl⟩
  | cons e es ih =>
    cases as with
    | nil => simp at hlen
    | cons a as' =>
      have hs' : w.supply = some a :: (as'.map some ++ rest) := by simpa using hs
      have hfa : w.cell a = none := hfresh a (by simp)
      obtain ⟨w1, h1, hwf1, hsup1, hobj1, hcell1⟩ :=
        pushTail_spec w this e ms a _ hwf hs' hfa
      have hnd' := List.nodup_cons.mp hnd
      have hfresh1 : ∀ b ∈ as', w1.cell b = none := by
        intro b hb
        have hbn : w.cell b = none := hfresh b (by simp [hb])
        have hba : b ≠ a := fun e => hnd'.1 (e ▸ hb)
        have hbm : b ∉ ms.map Prod.fst := fun hmem => hwf.links.live hmem hbn
        rw [hcell1 b hba hbm, hbn]
      obtain ⟨w2, h2, hwf2, hsup2, hobj2, hcell2⟩ :=
        ih w1 (ms ++ [(a, e)]) as' hwf1 hsup1 (by simpa using hlen) hnd'.2 hfresh1
      refine ⟨w2, ?_, ?_, hsup2, ?_, ?_⟩
      · simp only [initLoop, h1]
        exact h2
      · simpa using hwf2
      · intro o ho
        rw [hobj2 o ho, hobj1 o ho]
      · intro x hx hxm
        have hxa : x ≠ a := fun e => hx (by simp [e])
        have hxas : x ∉ as' := fun hmem => hx (by simp [hmem])
        rw [hcell2 x hxas (by simp [hxm, hxa]), hcell1 x hxa hxm]

/-- The copy loop with enough fresh blocks and fuel: the values of the source
chain are appended, in order; the source chain is only read. -/
theorem copyLoop_spec (this : Nat) (ss : List (Nat × α)) (fuel : Nat) (w : World α)
    (ms : List (Nat × α)) (prev : Ptr) (as : List Nat) (rest : List Ptr)
    (hwf : WF w this ms) (hsrc : Links w.cell prev ss none)
    (hdisj : ∀ x, x ∈ ss.map Prod.fst → x ∉ ms.map Prod.fst)
    (hs : w.supply = as.map some ++ rest)
    (hlen : as.length = ss.length) (hnd : as.Nodup)
    (hfresh : ∀ a ∈ as, w.cell a = none) (hf : ss.length < fuel) :
    ∃ w', copyLoop this fuel w (firstOf ss none) = .done () w' ∧
      WF w' this (ms ++ as.zip (contents ss)) ∧
      w'.supply = rest ∧ (∀ o, o ≠ this → w'.obj o = w.obj o) ∧
      (∀ x, x ∉ as → x ∉ ms.map Prod.fst → w'.cell x = w.cell x) := by
  induction ss generalizing w ms as prev fuel with
  | nil =>
    have has : as = [] := List.length_eq_zero.mp hlen
    subst has
    cases fuel with
    | zero => simp at hf
    | succ f =>
      exact ⟨w, rfl, by simpa [contents] using hwf, by simpa using hs, fun _ _ => rfl,
        fun _ _ _ => rfl⟩
  | cons y ys ih =>
    obtain ⟨s, vs⟩ := y
    obtain ⟨hcs, hrest⟩ := hsrc
    cases fuel with
    | zero => simp at hf
    | succ f =>
    cases as with
    | nil => simp at hlen
    | cons a as' =>
      have hs' : w.supply = some a :: (as'.map some ++ rest) := by simpa using hs
      have hfa : w.cell a = none := hfresh a (by simp)
      obtain ⟨w1, h1, hwf1, hsup1, hobj1, hcell1⟩ :=
        pushTail_spec w this vs ms a _ hwf hs' hfa
      have hnd' := List.nodup_cons.mp hnd
      have hlive : ∀ x, x ∈ ((s, vs) :: ys).map Prod.fst → w1.cell x = w.cell x := by
        intro x hx
        have hxl : w.cell x ≠ none :=
          Links.live (show Links w.cell prev ((s, vs) :: ys) none from ⟨hcs, hrest⟩) hx
        have hxa : x ≠ a := fun e => hxl (e ▸ hfa)
        exact hcell1 x hxa (hdisj x hx)
      have hcs1 : w1.cell s = some ⟨vs, firstOf ys none, prev⟩ := by
        rw [hlive s (by simp), hcs]
      have hrest1 : Links w1.cell (some s) ys none :=
        hrest.frame (fun x hx => hlive x (by
          simp only [List.map_cons, List.mem_cons]
          exact Or.inr hx))
      have hfresh1 : ∀ b ∈ as', w1.cell b = none := by
        intro b hb
        have hbn : w.cell b = none := hfresh b (by simp [hb])
        have hba : b ≠ a := fun e => hnd'.1 (e ▸ hb)
        have hbm : b ∉ ms.map Prod.fst := fun hmem => hwf.links.live hmem hbn
        rw [hcell1 b hba hbm, hbn]
      have hdisj1 : ∀ x, x ∈ ys.map Prod.fst → x ∉ (ms ++ [(a, vs)]).map Prod.fst := by
        intro x hx hmem
        have hx' : x ∈ ((s, vs) :: ys).map Prod.fst := by
          simp only [List.map_cons, List.mem_cons]
          exact Or.inr hx
        simp only [List.map_append, List.map_cons, List.map_nil, List.mem_append,
          List.mem_singleton] at hmem
        rcases hmem with hmem | hmem
        · exact hdisj x hx' hmem
        · have hxl : w.cell x ≠ none :=
            Links.live (show Links w.cell prev ((s, vs) :: ys) none from ⟨hcs, hrest⟩) hx'
          exact hxl (hmem ▸ hfa)
      obtain ⟨w2, h2, hwf2, hsup2, hobj2, hcell2⟩ :=
        ih f w1 (ms ++ [(a, vs)]) (some s) as' hwf1 hrest1 hdisj1 hsup1
          (by simpa using hlen) hnd'.2 hfresh1 (by simpa using hf)
      refine ⟨w2, ?_, ?_, hsup2, ?_, ?_⟩
      · show copyLoop this (f + 1) w (some s) = _
        simp only [copyLoop, hcs, h1, hcs1]
        exact h2
      · simpa [contents] using hwf2
      · intro o ho
        rw [hobj2 o ho, hobj1 o ho]
      · intro x hx hxm
        have hxa : x ≠ a := fun e => hx (by simp [e])
        have hxas : x ∉ as' := fun hmem => hx (by simp [hmem])
        rw [hcell2 x hxas (by simp [hxm, hxa]), hcell1 x hxa hxm]

/-- The loop of `clear()` with enough fuel: every node of the chain is freed,
`head` and `tail` become `nullptr`, and nothing else changes. -/
theorem clearLoop_spec (this : Nat) (ns : List (Nat × α)) (fuel : Nat) (w : World α)
    (prev : Ptr) (hhd : (w.obj this).head = firstOf ns none)
    (hl : Links w.cell prev ns none) (hnd : (ns.map Prod.fst).Nodup)
    (hf : ns.length < fuel) :
    ∃ w', clearLoop this fuel w = .done () w' ∧ w'.obj this = ⟨none, none⟩ ∧
      (∀ o, o ≠ this → w'.obj o = w.obj o) ∧
      (∀ x, x ∈ ns.map Prod.fst → w'.cell x = none) ∧
      (∀ x, x ∉ ns.map Prod.fst → w'.cell x = w.cell x) ∧ w'.supply = w.supply := by
  induction ns generalizing w prev fuel with
  | nil =>
    cases fuel with
    | zero => simp at hf
    | succ f =>
      have hhd' : (w.obj this).head = none := hhd
      simp only [clearLoop, hhd']
      refine ⟨_, rfl, by simp, ?_, by simp, by simp, rfl⟩
      intro o ho
      simp [Function.update_noteq ho]
  | cons y ys ih =>
    obtain ⟨h, vh⟩ := y
    obtain ⟨hch, hrest⟩ := hl
    have hnd' := List.nodup_cons.mp hnd
    cases fuel with
    | zero => simp at hf
    | succ f =>
      have hhd' : (w.obj this).head = some h := hhd
      have hrest1 : Links (Function.update w.cell h none) (some h) ys none :=
        hrest.frame (fun x hx =>
          Function.update_noteq (show x ≠ h from fun e => hnd'.1 (e ▸ hx)) _ _)
      obtain ⟨w2, h2, hobj2, hfr2, hz2, hc2, hsup2⟩ :=
        ih f
          { w with
            cell := Function.update w.cell h none
            obj := Function.update w.obj this ⟨firstOf ys none, (w.obj this).tail⟩ }
          (some h) (by simp) hrest1 hnd'.2 (by simpa using hf)
      refine ⟨w2, ?_, hobj2, ?_, ?_, ?_, hsup2⟩
      · simp only [clearLoop, hhd', hch, memFree]
        exact h2
      · intro o ho
        rw [hfr2 o ho]
        simp [Function.update_noteq ho]
      · intro x hx
        simp only [List.map_cons, List.mem_cons] at hx
        by_cases hxy : x ∈ ys.map Prod.fst
        · exact hz2 x hxy
        · rcases hx with hx | hx
          · rw [hc2 x hxy, hx]
            simp
          · exact absurd hx hxy
      · intro x hx
        have hxh : x ≠ h := fun e => hx (by simp [e])
        have hxy : x ∉ ys.map Prod.fst := fun hmem => hx (by
          simp only [List.map_cons, List.mem_cons]
          exact Or.inr hmem)
        rw [hc2 x hxy]
        simp [Function.update_noteq hxh]

/-- Well-formedness of a deque object only depends on the object itself and on
the blocks of its nodes. -/
theorem WF.transfer {w w' : World α} {d : Nat} {ms : List (Nat × α)} (h : WF w d ms)
    (hobj : w'.obj d = w.obj d) (hcell : ∀ x, x ∈ ms.map Prod.fst → w'.cell x = w.cell x) :
    WF w' d ms :=
  ⟨by rw [hobj]; exact h.head_eq, by rw [hobj]; exact h.tail_eq, h.links.frame hcell, h.nodup⟩

theorem mem_of_mem_zip_fst {as : List Nat} {l : List α} {x : Nat}
    (h : x ∈ (as.zip l).map Prod.fst) : x ∈ as := by
  obtain ⟨⟨a, b⟩, hab, rfl⟩ := List.mem_map.mp h
  exact (List.of_mem_zip hab).1

theorem contents_zip (as : List Nat) (l : List α) (h : as.length = l.length) :
    contents (as.zip l) = l := by
  simp only [contents]
  rw [← List.unzip_snd, List.unzip_zip_right (le_of_eq h.symm)]

theorem Sep.symm {w : World α} {c d : Nat} {ns ms : List (Nat × α)} (h : Sep w c d ns ms) :
    Sep w d c ms ns :=
  ⟨h.ne.symm, h.right, h.left, fun x hx hx' => h.disjoint x hx' hx⟩

/-- The copy constructor with enough fresh blocks and fuel: the new deque holds
the source's values in fresh nodes, the source is untouched. -/
theorem ctorCopy_spec (fuel : Nat) (w : World α) (this other : Nat) (ns : List (Nat × α))
    (as : List Nat) (rest : List Ptr) (hne : this ≠ other) (hsrc : WF w other ns)
    (hs : w.supply = as.map some ++ rest) (hlen : as.length = ns.length) (hnd : as.Nodup)
    (hfresh : ∀ a ∈ as, w.cell a = none) (hf : ns.length < fuel) :
    ∃ w', ctorCopy fuel w this other = .done () w' ∧
      Sep w' this other (as.zip (contents ns)) ns ∧ w'.supply = rest ∧
      (∀ o, o ≠ this → w'.obj o = w.obj o) ∧ (∀ x, x ∉ as → w'.cell x = w.cell x) := by
  have hwf0 : WF { w with obj := Function.update w.obj this ⟨none, none⟩ } this [] :=
    ⟨by simp [firstOf], by simp [lastOf], trivial, by simp⟩
  have hhd : (Function.update w.obj this ⟨none, none⟩ other).head = firstOf ns none := by
    rw [Function.update_noteq hne.symm]
    exact hsrc.head_eq
  obtain ⟨w', h1, h2, h3, h4, h5⟩ :=
    copyLoop_spec this ns fuel { w with obj := Function.update w.obj this ⟨none, none⟩ } []
      none as rest hwf0 hsrc.links (by simp) hs hlen hnd hfresh hf
  have hcell : ∀ x, x ∉ as → w'.cell x = w.cell x := fun x hx => h5 x hx (by simp)
  have hobj : ∀ o, o ≠ this → w'.obj o = w.obj o := by
    intro o ho
    rw [h4 o ho]
    simp [Function.update_noteq ho]
  have hlive : ∀ x, x ∈ ns.map Prod.fst → x ∉ as :=
    fun x hx hmem => hsrc.links.live hx (hfresh x hmem)
  refine ⟨w', ?_, ⟨hne, by simpa using h2, ?_, ?_⟩, h3, hobj, hcell⟩
  · simp only [ctorCopy]
    rw [hhd]
    exact h1
  · exact hsrc.transfer (hobj other hne.symm) (fun x hx => hcell x (hlive x hx))
  · intro x hx hx'
    exact hlive x hx' (mem_of_mem_zip_fst hx)

/-- Copy assignment to a different object with enough fresh blocks and fuel: the
old nodes of the destination are freed (and may be handed out again), after
which the destination holds the source's values in new nodes; the source is
untouched. -/
theorem assignCopy_spec (fuel : Nat) (w : World α) (this other : Nat)
    (ns cs : List (Nat × α)) (as : List Nat) (rest : List Ptr) (hne : this ≠ other)
    (hsrc : WF w other ns) (hdst : WF w this cs)
    (hdisj : ∀ x, x ∈ cs.map Prod.fst → x ∉ ns.map Prod.fst)
    (hs : w.supply = as.map some ++ rest) (hlen : as.length = ns.length) (hnd : as.Nodup)
    (hfresh : ∀ a ∈ as, w.cell a = none ∨ a ∈ cs.map Prod.fst)
    (hf : ns.length < fuel) (hfc : cs.length < fuel) :
    ∃ w', assignCopy fuel w this other = .done () w' ∧
      Sep w' this other (as.zip (contents ns)) ns ∧ w'.supply = rest ∧
      (∀ o, o ≠ this → w'.obj o = w.obj o) ∧
      (∀ x, x ∉ as → x ∉ cs.map Prod.fst → w'.cell x = w.cell x) := by
  obtain ⟨w1, c1, c2, c3, c4, c5, c6⟩ :=
    clearLoop_spec this cs fuel w none hdst.head_eq hdst.links hdst.nodup hfc
  have hwf1 : WF w1 this [] := ⟨by rw [c2]; rfl, by rw [c2]; rfl, trivial, by simp⟩
  have hsrc1 : WF w1 other ns :=
    hsrc.transfer (c3 other hne.symm) (fun x hx => c5 x (fun hx' => hdisj x hx' hx))
  have hfresh1 : ∀ a ∈ as, w1.cell a = none := by
    intro a ha
    by_cases hac : a ∈ cs.map Prod.fst
    · exact c4 a hac
    · rcases hfresh a ha with h | h
      · rw [c5 a hac, h]
      · exact absurd h hac
  obtain ⟨w', h1, h2, h3, h4, h5⟩ :=
    copyLoop_spec this ns fuel w1 [] none as rest hwf1 hsrc1.links (by simp)
      (c6.trans hs) hlen hnd hfresh1 hf
  have hlive : ∀ x, x ∈ ns.map Prod.fst → x ∉ as :=
    fun x hx hmem => hsrc1.links.live hx (hfresh1 x hmem)
  have hobj : ∀ o, o ≠ this → w'.obj o = w.obj o := by
    intro o ho
    rw [h4 o ho, c3 o ho]
  refine ⟨w', ?_, ⟨hne, by simpa using h2, ?_, ?_⟩, h3, hobj, ?_⟩
  · simp only [assignCopy, if_neg hne.symm, clear, c1]
    rw [hsrc1.head_eq]
    exact h1
  · exact hsrc1.transfer (h4 other hne.symm) (fun x hx => h5 x (hlive x hx) (by simp))
  · intro x hx hx'
    exact hlive x hx' (mem_of_mem_zip_fst hx)
  · intro x hx hxc
    rw [h5 x hx (by simp), c5 x hxc]

theorem LeavesAlone.intro {w w2 : World α} {c d : Nat} {ns ms : List (Nat × α)}
    {r : Res α Unit} (ns2 : List (Nat × α)) (h : Sep w c d ns ms)
    (hr : r = .done () w2 ∨ r = .thrown (-1) w2) (hc : WF w2 c ns2)
    (hdis : ∀ x, x ∈ ns2.map Prod.fst → x ∉ ms.map Prod.fst)
    (hobj : w2.obj d = w.obj d) (hcell : ∀ x, x ∈ ms.map Prod.fst → w2.cell x = w.cell x) :
    LeavesAlone r w c d ms :=
  ⟨w2, hr, ⟨ns2, h.ne, hc, h.right.transfer hobj hcell, hdis⟩, hobj, hcell⟩

/-- A failed allocation: only the supply of `malloc` answers moves on. -/
theorem LeavesAlone.of_supply {w : World α} {c d : Nat} {ns ms : List (Nat × α)}
    {r : Res α Unit} (h : Sep w c d ns ms) (sup : List Ptr)
    (hr : r = .thrown (-1) { w with supply := sup }) : LeavesAlone r w c d ms :=
  LeavesAlone.intro _ h (Or.inr hr) (h.left.transfer rfl (fun _ _ => rfl)) h.disjoint rfl
    (fun _ _ => rfl)

/-- `pushHead` on one deque leaves the other alone. -/
theorem pushHead_frame {w : World α} {c d : Nat} {ns ms : List (Nat × α)}
    (h : Sep w c d ns ms) (v : α)
    (hal : ∀ a rest, w.supply = some a :: rest → w.cell a = none) :
    LeavesAlone (pushHead w c v) w c d ms := by
  cases hsup : w.supply with
  | nil =>
    refine LeavesAlone.of_supply h [] ?_
    simp only [pushHead, memMalloc, hsup]
    congr 1
    cases w
    simp_all
  | cons r rest =>
    cases r with
    | none =>
      refine LeavesAlone.of_supply h rest ?_
      simp only [pushHead, memMalloc, hsup]
    | some a =>
      have hfa := hal a rest hsup
      obtain ⟨w2, h1, h2, _, h4, h5⟩ := pushHead_spec w c v ns a rest h.left hsup hfa
      have hlive : ∀ x, x ∈ ms.map Prod.fst → x ≠ a :=
        fun x hx e => h.right.links.live hx (e ▸ hfa)
      refine LeavesAlone.intro _ h (Or.inl h1) h2 ?_ (h4 d h.ne.symm) ?_
      · intro x hx hx'
        simp only [List.map_cons, List.mem_cons] at hx
        rcases hx with hx | hx
        · exact hlive x hx' hx
        · exact h.disjoint x hx hx'
      · intro x hx
        exact h5 x (hlive x hx) (fun hx' => h.disjoint x hx' hx)

/-- `pushTail` on one deque leaves the other alone. -/
theorem pushTail_frame {w : World α} {c d : Nat} {ns ms : List (Nat × α)}
    (h : Sep w c d ns ms) (v : α)
    (hal : ∀ a rest, w.supply = some a :: rest → w.cell a = none) :
    LeavesAlone (pushTail w c v) w c d ms := by
  cases hsup : w.supply with
  | nil =>
    refine LeavesAlone.of_supply h [] ?_
    simp only [pushTail, memMalloc, hsup]
    congr 1
    cases w
    simp_all
  | cons r rest =>
    cases r with
    | none =>
      refine LeavesAlone.of_supply h rest ?_
      simp only [pushTail, memMalloc, hsup]
    | some a =>
      have hfa := hal a rest hsup
      obtain ⟨w2, h1, h2, _, h4, h5⟩ := pushTail_spec w c v ns a rest h.left hsup hfa
      have hlive : ∀ x, x ∈ ms.map Prod.fst → x ≠ a :=
        fun x hx e => h.right.links.live hx (e ▸ hfa)
      refine LeavesAlone.intro _ h (Or.inl h1) h2 ?_ (h4 d h.ne.symm) ?_
      · intro x hx hx'
        simp only [List.map_append, List.map_cons, List.map_nil, List.mem_append,
          List.mem_singleton] at hx
        rcases hx with hx | hx
        · exact h.disjoint x hx hx'
        · exact hlive x hx' hx
      · intro x hx
        exact h5 x (hlive x hx) (fun hx' => h.disjoint x hx' hx)

/-- `popHead` on one deque leaves the other alone, or is undefined because the
deque has at most one node. -/
theorem popHead_frame {w : World α} {c d : Nat} {ns ms : List (Nat × α)}
    (h : Sep w c d ns ms) :
    LeavesAlone (popHead w c) w c d ms ∨ (popHead w c = .undef ∧ ns.length ≤ 1) := by
  match ns, h with
  | [], h => exact Or.inr ⟨popHead_empty w c h.left, by simp⟩
  | [(a, v)], h => exact Or.inr ⟨popHead_single w c a v h.left, by simp⟩
  | (a, v) :: (b, u) :: rest, h =>
    obtain ⟨w2, h1, h2, _, h4, h5, _⟩ := popHead_spec w c a v b u rest h.left
    refine Or.inl (LeavesAlone.intro _ h (Or.inl h1) h2 ?_ (h4 d h.ne.symm) ?_)
    · intro x hx hx'
      exact h.disjoint x (by
        simp only [List.map_cons, List.mem_cons] at hx ⊢
        exact Or.inr hx) hx'
    · intro x hx
      refine h5 x (fun e => h.disjoint x (by simp [e]) hx) (fun e => h.disjoint x (by simp [e]) hx)

/-- `popTail` on one deque leaves the other alone, or is undefined because the
deque has at most one node. -/
theorem popTail_frame {w : World α} {c d : Nat} {ns ms : List (Nat × α)}
    (h : Sep w c d ns ms) :
    LeavesAlone (popTail w c) w c d ms ∨ (popTail w c = .undef ∧ ns.length ≤ 1) := by
  rcases List.eq_nil_or_concat ns with hnil | ⟨l1, ⟨t, vt⟩, hn⟩
  · subst hnil
    exact Or.inr ⟨popTail_empty w c h.left, by simp⟩
  · rw [List.concat_eq_append] at hn
    rcases List.eq_nil_or_concat l1 with hnil | ⟨init, ⟨p, vp⟩, hl⟩
    · subst hnil
      subst hn
      exact Or.inr ⟨popTail_single w c t vt h.left, by simp⟩
    · rw [List.concat_eq_append] at hl
      subst hl
      subst hn
      obtain ⟨w2, h1, h2, _, h4, h5, _⟩ := popTail_spec w c init p vp t vt h.left
      refine Or.inl (LeavesAlone.intro _ h (Or.inl h1) h2 ?_ (h4 d h.ne.symm) ?_)
      · intro x hx hx'
        exact h.disjoint x (by
          rw [List.map_append, List.mem_append]
          exact Or.inl hx) hx'
      · intro x hx
        refine h5 x (fun e => h.disjoint x (by simp [e]) hx)
          (fun e => h.disjoint x (by simp [e]) hx)

/-- `clear()` on one deque leaves the other alone. -/
theorem clear_frame {w : World α} {c d : Nat} {ns ms : List (Nat × α)}
    (h : Sep w c d ns ms) (fuel : Nat) (hf : ns.length < fuel) :
    LeavesAlone (clear fuel w c) w c d ms := by
  obtain ⟨w2, c1, c2, c3, _, c5, _⟩ :=
    clearLoop_spec c ns fuel w none h.left.head_eq h.left.links h.left.nodup hf
  refine LeavesAlone.intro [] h (Or.inl c1) ?_ (by simp) (c3 d h.ne.symm) ?_
  · exact ⟨by rw [c2]; rfl, by rw [c2]; rfl, trivial, by simp⟩
  · intro x hx
    exact c5 x (fun hx' => h.disjoint x hx' hx)

/-- Move-constructing a third object from one deque leaves the other alone. -/
theorem ctorMove_frame {w : World α} {c d : Nat} {ns ms : List (Nat × α)}
    (h : Sep w c d ns ms) (e : Nat) (hed : e ≠ d) :
    LeavesAlone (ctorMove w e c) w c d ms := by
  have hdc : d ≠ c := h.ne.symm
  have hde : d ≠ e := hed.symm
  refine LeavesAlone.intro [] h (Or.inl rfl) ⟨?_, ?_, trivial, by simp⟩ (by simp) ?_
    (fun _ _ => rfl)
  · simp [firstOf, moveEnds]
  · simp [lastOf, moveEnds]
  · simp [moveEnds, Function.update_noteq hdc, Function.update_noteq hde]

/-- Move assignment of one deque to a third object leaves the other alone. -/
theorem assignMove_into_frame {w : World α} {c d : Nat} {ns ms : List (Nat × α)}
    (h : Sep w c d ns ms) (fuel : Nat) (e : Nat) (hed : e ≠ d) (es : List (Nat × α))
    (hes : WF w e es) (hf : es.length < fuel)
    (hdis : ∀ x, x ∈ es.map Prod.fst → x ∉ ms.map Prod.fst) :
    LeavesAlone (assignMove fuel w e c) w c d ms := by
  by_cases hce : c = e
  · refine LeavesAlone.intro _ h (Or.inl ?_) h.left h.disjoint rfl (fun _ _ => rfl)
    simp [assignMove, hce]
  · have hdc : d ≠ c := h.ne.symm
    have hde : d ≠ e := hed.symm
    obtain ⟨w0, c1, _, c3, _, c5, _⟩ :=
      clearLoop_spec e es fuel w none hes.head_eq hes.links hes.nodup hf
    have hr : assignMove fuel w e c = .done () (moveEnds w0 e c) := by
      simp only [assignMove, if_neg hce, clear, c1]
    refine LeavesAlone.intro [] h (Or.inl hr) ⟨?_, ?_, trivial, by simp⟩ (by simp) ?_ ?_
    · simp [firstOf, moveEnds]
    · simp [lastOf, moveEnds]
    · simp only [moveEnds, Function.update_noteq hdc, Function.update_noteq hde]
      exact c3 d hde
    · intro x hx
      exact c5 x (fun hx' => hdis x hx' hx)

/-- Move assignment of a third object to one deque leaves the other alone. -/
theorem assignMove_from_frame {w : World α} {c d : Nat} {ns ms : List (Nat × α)}
    (h : Sep w c d ns ms) (fuel : Nat) (e : Nat) (hed : e ≠ d) (hf : ns.length < fuel)
    (es : List (Nat × α)) (hes : WF w e es)
    (hdis : ∀ x, x ∈ es.map Prod.fst → x ∉ ms.map Prod.fst)
    (hdis2 : ∀ x, x ∈ es.map Prod.fst → x ∉ ns.map Prod.fst) :
    LeavesAlone (assignMove fuel w c e) w c d ms := by
  by_cases hec : e = c
  · refine LeavesAlone.intro _ h (Or.inl ?_) h.left h.disjoint rfl (fun _ _ => rfl)
    simp [assignMove, hec]
  · have hdc : d ≠ c := h.ne.symm
    have hde : d ≠ e := hed.symm
    have hce : c ≠ e := fun x => hec x.symm
    obtain ⟨w0, c1, _, c3, _, c5, _⟩ :=
      clearLoop_spec c ns fuel w none h.left.head_eq h.left.links h.left.nodup hf
    have hr : assignMove fuel w c e = .done () (moveEnds w0 c e) := by
      simp only [assignMove, if_neg hec, clear, c1]
    have hobe : w0.obj e = w.obj e := c3 e hec
    refine LeavesAlone.intro es h (Or.inl hr) ⟨?_, ?_, ?_, hes.nodup⟩ hdis ?_ ?_
    · simp only [moveEnds, Function.update_noteq hce, Function.update_noteq hec,
        Function.update_same, hobe]
      exact hes.head_eq
    · simp only [moveEnds, Function.update_noteq hce, Function.update_noteq hec,
        Function.update_same, hobe]
      exact hes.tail_eq
    · exact hes.links.frame (fun x hx => c5 x (hdis2 x hx))
    · simp only [moveEnds, Function.update_noteq hdc, Function.update_noteq hde]
      exact c3 d hdc
    · intro x hx
      exact c5 x (fun hx' => h.disjoint x hx' hx)

/-- Every operation on one of two separated deques leaves the other alone, the
pops of a deque with at most one node excepted, which are undefined. -/
theorem op_frame {w : World α} {c d : Nat} {ns ms : List (Nat × α)}
    (h : Sep w c d ns ms) (fuel : Nat) (op : Op α) (hpre : OpPre fuel w d ns ms op) :
    LeavesAlone (applyOp fuel w c op) w c d ms ∨
      (applyOp fuel w c op = .undef ∧ ns.length ≤ 1 ∧ (op = .popHead ∨ op = .popTail)) := by
  cases op with
  | pushHead v => exact Or.inl (pushHead_frame h v hpre)
  | pushHeadMove v => exact Or.inl (pushHead_frame h v hpre)
  | pushTail v => exact Or.inl (pushTail_frame h v hpre)
  | pushTailMove v => exact Or.inl (pushTail_frame h v hpre)
  | popHead =>
    rcases popHead_frame h with h1 | ⟨h1, h2⟩
    · exact Or.inl h1
    · exact Or.inr ⟨h1, h2, Or.inl rfl⟩
  | popTail =>
    rcases popTail_frame h with h1 | ⟨h1, h2⟩
    · exact Or.inl h1
    · exact Or.inr ⟨h1, h2, Or.inr rfl⟩
  | clear => exact Or.inl (clear_frame h fuel hpre)
  | moveInto e => exact Or.inl (ctorMove_frame h e hpre)
  | moveAssignInto e =>
    obtain ⟨h1, es, h2, h3, h4⟩ := hpre
    exact Or.inl (assignMove_into_frame h fuel e h1 es h2 h3 h4)
  | moveAssignFrom e =>
    obtain ⟨h1, h2, es, h3, h4, h5⟩ := hpre
    exact Or.inl (assignMove_from_frame h fuel e h1 h2 es h3 h4 h5)

/-- The world after the four assignments of a move between two different
objects: the destination has the source's ends, the source has none, and
nothing else changes. -/
theorem moveEnds_spec (w0 : World α) (c e : Nat) (hce : c ≠ e) :
    (moveEnds w0 c e).obj c = ⟨(w0.obj e).head, (w0.obj e).tail⟩ ∧
    (moveEnds w0 c e).obj e = ⟨none, none⟩ ∧
    (∀ o, o ≠ c → o ≠ e → (moveEnds w0 c e).obj o = w0.obj o) ∧
    (moveEnds w0 c e).cell = w0.cell ∧ (moveEnds w0 c e).supply = w0.supply := by
  have hec : e ≠ c := fun h => hce h.symm
  refine ⟨?_, ?_, ?_, rfl, rfl⟩
  · simp [moveEnds, Function.update_noteq hce, Function.update_noteq hec]
  · simp [moveEnds]
  · intro o hoc hoe
    simp [moveEnds, Function.update_noteq hoc, Function.update_noteq hoe]

/-- The move constructor from a well-formed deque: the new object owns the same
nodes, the source is empty, no block changes. -/
theorem ctorMove_spec (w : World α) (this other : Nat) (ns : List (Nat × α))
    (hne : this ≠ other) (hsrc : WF w other ns) :
    ∃ w', ctorMove w this other = .done () w' ∧ WF w' this ns ∧ WF w' other [] ∧
      w'.obj other = ⟨none, none⟩ ∧ w'.cell = w.cell ∧ w'.supply = w.supply ∧
      (∀ o, o ≠ this → o ≠ other → w'.obj o = w.obj o) := by
  obtain ⟨m1, m2, m3, m4, m5⟩ :=
    moveEnds_spec { w with obj := Function.update w.obj this ⟨none, none⟩ } this other hne
  have hoth : Function.update w.obj this ⟨none, none⟩ other = w.obj other :=
    Function.update_noteq hne.symm _ _
  refine ⟨_, rfl, ⟨?_, ?_, ?_, hsrc.nodup⟩, ⟨?_, ?_, trivial, by simp⟩, m2, m4, m5, ?_⟩
  · rw [m1]
    simp only [hoth]
    exact hsrc.head_eq
  · rw [m1]
    simp only [hoth]
    exact hsrc.tail_eq
  · rw [m4]
    exact hsrc.links
  · rw [m2]
    rfl
  · rw [m2]
    rfl
  · intro o ho ho'
    rw [m3 o ho ho']
    exact Function.update_noteq ho _ _

/-- Move assignment between two separated deques: the old nodes of the
destination are freed, the destination owns the source's nodes, the source is
empty. -/
theorem assignMove_spec (fuel : Nat) (w : World α) (this other : Nat)
    (cs ns : List (Nat × α)) (hsep : Sep w this other cs ns) (hf : cs.length < fuel) :
    ∃ w', assignMove fuel w this other = .done () w' ∧ WF w' this ns ∧ WF w' other [] ∧
      w'.obj other = ⟨none, none⟩ ∧ w'.supply = w.supply ∧
      (∀ o, o ≠ this → o ≠ other → w'.obj o = w.obj o) ∧
      (∀ x, x ∈ cs.map Prod.fst → w'.cell x = none) ∧
      (∀ x, x ∉ cs.map Prod.fst → w'.cell x = w.cell x) := by
  have hne := hsep.ne
  obtain ⟨w0, c1, _, c3, c4, c5, c6⟩ :=
    clearLoop_spec this cs fuel w none hsep.left.head_eq hsep.left.links hsep.left.nodup hf
  obtain ⟨m1, m2, m3, m4, m5⟩ := moveEnds_spec w0 this other hne
  have hoth : w0.obj other = w.obj other := c3 other hne.symm
  have hr : assignMove fuel w this other = .done () (moveEnds w0 this other) := by
    simp only [assignMove, if_neg hne.symm, clear, c1]
  refine ⟨_, hr, ⟨?_, ?_, ?_, hsep.right.nodup⟩, ⟨?_, ?_, trivial, by simp⟩, m2,
    m5.trans c6, ?_, ?_, ?_⟩
  · rw [m1, hoth]
    exact hsep.right.head_eq
  · rw [m1, hoth]
    exact hsep.right.tail_eq
  · rw [m4]
    exact hsep.right.links.frame (fun x hx => c5 x (fun hx' => hsep.disjoint x hx' hx))
  · rw [m2]
    rfl
  · rw [m2]
    rfl
  · intro o ho ho'
    rw [m3 o ho ho', c3 o ho]
  · intro x hx
    rw [m4]
    exact c4 x hx
  · intro x hx
    rw [m4]
    exact c5 x hx

/-- The loop of `size()` on a chain: it counts the nodes, provided the fuel
exceeds their number and the count stays within `int`. -/
theorem sizeLoop_spec (w : World α) (fuel : Nat) (ns : List (Nat × α)) (prev : Ptr)
    (count : Int) (h : Links w.cell prev ns none) (hf : ns.length < fuel)
    (hmax : count + ns.length ≤ INT_MAX) :
    sizeLoop w fuel (firstOf ns none) count = .done (count + ns.length) w := by
  induction ns generalizing prev count fuel with
  | nil =>
    cases fuel with
    | zero => simp at hf
    | succ f => simp [sizeLoop, firstOf]
  | cons y ys ih =>
    obtain ⟨b, u⟩ := y
    obtain ⟨hb, hrest⟩ := h
    cases fuel with
    | zero => simp at hf
    | succ f =>
      have hf' : ys.length < f := by simpa using hf
      have hlen : (((b, u) :: ys).length : Int) = ys.length + 1 := by simp
      have hne : count ≠ INT_MAX := by
        intro e
        rw [hlen] at hmax
        omega
      show sizeLoop w (f + 1) (some b) count = _
      simp only [sizeLoop, if_neg hne, hb]
      rw [ih f (some b) (count + 1) hrest hf' (by rw [hlen] at hmax; omega), hlen]
      congr 1
      omega

/-- What `size()` returns on a well-formed deque of at most `INT_MAX` nodes. -/
theorem size_spec (fuel : Nat) (w : World α) (this : Nat) (ns : List (Nat × α))
    (hwf : WF w this ns) (hf : ns.length < fuel) (hmax : (ns.length : Int) ≤ INT_MAX) :
    size fuel w this = .done ns.length w := by
  unfold size
  rw [hwf.head_eq, sizeLoop_spec w fuel ns none 0 hwf.links hf (by omega)]
  simp

/-- A world is determined by its three components. -/
theorem World.ext_of {w w' : World α} (h1 : w'.cell = w.cell) (h2 : w'.obj = w.obj)
    (h3 : w'.supply = w.supply) : w' = w := by
  cases w
  cases w'
  simp_all

theorem getHead_empty (w : World α) (this : Nat) (hwf : WF w this []) :
    getHead w this = .undef := by
  have hhd : (w.obj this).head = none := hwf.head_eq
  simp [getHead, hhd]

theorem getTail_empty (w : World α) (this : Nat) (hwf : WF w this []) :
    getTail w this = .undef := by
  have htl : (w.obj this).tail = none := hwf.tail_eq
  simp [getTail, htl]

/-- A push whose allocation fails throws `-1` and changes neither a block nor a
deque object. -/
theorem pushTail_fails (w : World α) (this : Nat) (v : α) (hfail : failsNext w.supply = true) :
    ∃ w', pushTail w this v = .thrown (-1) w' ∧ w'.cell = w.cell ∧ w'.obj = w.obj := by
  cases hsup : w.supply with
  | nil => exact ⟨w, by simp [pushTail, memMalloc, hsup], rfl, rfl⟩
  | cons r rest =>
    cases r with
    | none =>
      exact ⟨{ w with supply := rest }, by simp only [pushTail, memMalloc, hsup], rfl, rfl⟩
    | some a => simp [hsup, failsNext] at hfail

/-- The loop of the initializer list constructor when `memMalloc` hands out the
fresh blocks `as` and then either the list is exhausted or the allocation
fails: the elements that got a block are appended, in order, and the loop
returns normally. -/
theorem initLoop_gen (this : Nat) (elems : List α) (w : World α) (ms : List (Nat × α))
    (as : List Nat) (tl : List Ptr)
    (hwf : WF w this ms) (hs : w.supply = as.map some ++ tl) (hnd : as.Nodup)
    (hfresh : ∀ a ∈ as, w.cell a = none)
    (hk : as.length = elems.length ∨ (as.length < elems.length ∧ failsNext tl = true)) :
    ∃ w', initLoop this w elems = .done () w' ∧ WF w' this (ms ++ as.zip elems) ∧
      (∀ o, o ≠ this → w'.obj o = w.obj o) ∧
      (∀ x, x ∉ as → x ∉ ms.map Prod.fst → w'.cell x = w.cell x) := by
  induction elems generalizing w ms as with
  | nil =>
    have has : as = [] := by
      rcases hk with h | ⟨h, _⟩
      · exact List.length_eq_zero.mp h
      · simp at h
    subst has
    exact ⟨w, rfl, by simpa using hwf, fun _ _ => rfl, fun _ _ _ => rfl⟩
  | cons e es ih =>
    cases as with
    | nil =>
      have hfail : failsNext w.supply = true := by
        rcases hk with h | ⟨_, h⟩
        · simp at h
        · simpa [hs] using h
      obtain ⟨w1, h1, h2, h3⟩ := pushTail_fails w this e hfail
      refine ⟨w1, by simp only [initLoop, h1], ?_, fun o _ => by rw [h3],
        fun x _ _ => by rw [h2]⟩
      simpa using hwf.transfer (by rw [h3]) (fun x _ => by rw [h2])
    | cons a as' =>
      have hs' : w.supply = some a :: (as'.map some ++ tl) := by simpa using hs
      have hfa : w.cell a = none := hfresh a (by simp)
      obtain ⟨w1, h1, hwf1, hsup1, hobj1, hcell1⟩ :=
        pushTail_spec w this e ms a _ hwf hs' hfa
      have hnd' := List.nodup_cons.mp hnd
      have hfresh1 : ∀ b ∈ as', w1.cell b = none := by
        intro b hb
        have hbn : w.cell b = none := hfresh b (by simp [hb])
        have hba : b ≠ a := fun e => hnd'.1 (e ▸ hb)
        have hbm : b ∉ ms.map Prod.fst := fun hmem => hwf.links.live hmem hbn
        rw [hcell1 b hba hbm, hbn]
      have hk' : as'.length = es.length ∨ (as'.length < es.length ∧ failsNext tl = true) := by
        rcases hk with h | ⟨h, h'⟩
        · exact Or.inl (by simpa using h)
        · exact Or.inr ⟨by simpa using h, h'⟩
      obtain ⟨w2, h2, hwf2, hobj2, hcell2⟩ :=
        ih w1 (ms ++ [(a, e)]) as' hwf1 hsup1 hnd'.2 hfresh1 hk'
      refine ⟨w2, ?_, ?_, ?_, ?_⟩
      · simp only [initLoop, h1]
        exact h2
      · simpa using hwf2
      · intro o ho
        rw [hobj2 o ho, hobj1 o ho]
      · intro x hx hxm
        have hxa : x ≠ a := fun e => hx (by simp [e])
        have hxas : x ∉ as' := fun hmem => hx (by simp [hmem])
        rw [hcell2 x hxas (by simp [hxm, hxa]), hcell1 x hxa hxm]

/-- The copy loop when `memMalloc` hands out the fresh blocks `as` and then
either the source is exhausted or the allocation fails: the values that got a
block are appended, in order, the loop returns normally, and the source chain
is only read. -/
theorem copyLoop_gen (this : Nat) (ss : List (Nat × α)) (fuel : Nat) (w : World α)
    (ms : List (Nat × α)) (prev : Ptr) (as : List Nat) (tl : List Ptr)
    (hwf : WF w this ms) (hsrc : Links w.cell prev ss none)
    (hdisj : ∀ x, x ∈ ss.map Prod.fst → x ∉ ms.map Prod.fst)
    (hs : w.supply = as.map some ++ tl) (hnd : as.Nodup)
    (hfresh : ∀ a ∈ as, w.cell a = none)
    (hk : as.length = ss.length ∨ (as.length < ss.length ∧ failsNext tl = true))
    (hf : ss.length < fuel) :
    ∃ w', copyLoop this fuel w (firstOf ss none) = .done () w' ∧
      WF w' this (ms ++ as.zip (contents ss)) ∧
      (∀ o, o ≠ this → w'.obj o = w.obj o) ∧
      (∀ x, x ∉ as → x ∉ ms.map Prod.fst → w'.cell x = w.cell x) := by
  induction ss generalizing w ms as prev fuel with
  | nil =>
    have has : as = [] := by
      rcases hk with h | ⟨h, _⟩
      · exact List.length_eq_zero.mp h
      · simp at h
    subst has
    cases fuel with
    | zero => simp at hf
    | succ f =>
      exact ⟨w, rfl, by simpa [contents] using hwf, fun _ _ => rfl, fun _ _ _ => rfl⟩
  | cons y ys ih =>
    obtain ⟨s, vs⟩ := y
    obtain ⟨hcs, hrest⟩ := hsrc
    cases fuel with
    | zero => simp at hf
    | succ f =>
    cases as with
    | nil =>
      have hfail : failsNext w.supply = true := by
        rcases hk with h | ⟨_, h⟩
        · simp at h
        · simpa [hs] using h
      obtain ⟨w1, h1, h2, h3⟩ := pushTail_fails w this vs hfail
      refine ⟨w1, ?_, ?_, fun o _ => by rw [h3], fun x _ _ => by rw [h2]⟩
      · show copyLoop this (f + 1) w (some s) = _
        simp only [copyLoop, hcs, h1]
      · simpa using hwf.transfer (by rw [h3]) (fun x _ => by rw [h2])
    | cons a as' =>
      have hs' : w.supply = some a :: (as'.map some ++ tl) := by simpa using hs
      have hfa : w.cell a = none := hfresh a (by simp)
      obtain ⟨w1, h1, hwf1, hsup1, hobj1, hcell1⟩ :=
        pushTail_spec w this vs ms a _ hwf hs' hfa
      have hnd' := List.nodup_cons.mp hnd
      have hlive : ∀ x, x ∈ ((s, vs) :: ys).map Prod.fst → w1.cell x = w.cell x := by
        intro x hx
        have hxl : w.cell x ≠ none :=
          Links.live (show Links w.cell prev ((s, vs) :: ys) none from ⟨hcs, hrest⟩) hx
        have hxa : x ≠ a := fun e => hxl (e ▸ hfa)
        exact hcell1 x hxa (hdisj x hx)
      have hcs1 : w1.cell s = some ⟨vs, firstOf ys none, prev⟩ := by
        rw [hlive s (by simp), hcs]
      have hrest1 : Links w1.cell (some s) ys none :=
        hrest.frame (fun x hx => hlive x (by
          simp only [List.map_cons, List.mem_cons]
          exact Or.inr hx))
      have hfresh1 : ∀ b ∈ as', w1.cell b = none := by
        intro b hb
        have hbn : w.cell b = none := hfresh b (by simp [hb])
        have hba : b ≠ a := fun e => hnd'.1 (e ▸ hb)
        have hbm : b ∉ ms.map Prod.fst := fun hmem => hwf.links.live hmem hbn
        rw [hcell1 b hba hbm, hbn]
      have hdisj1 : ∀ x, x ∈ ys.map Prod.fst → x ∉ (ms ++ [(a, vs)]).map Prod.fst := by
        intro x hx hmem
        have hx' : x ∈ ((s, vs) :: ys).map Prod.fst := by
          simp only [List.map_cons, List.mem_cons]
          exact Or.inr hx
        simp only [List.map_append, List.map_cons, List.map_nil, List.mem_append,
          List.mem_singleton] at hmem
        rcases hmem with hmem | hmem
        · exact hdisj x hx' hmem
        · have hxl : w.cell x ≠ none :=
            Links.live (show Links w.cell prev ((s, vs) :: ys) none from ⟨hcs, hrest⟩) hx'
          exact hxl (hmem ▸ hfa)
      have hk' : as'.length = ys.length ∨ (as'.length < ys.length ∧ failsNext tl = true) := by
        rcases hk with h | ⟨h, h'⟩
        · exact Or.inl (by simpa using h)
        · exact Or.inr ⟨by simpa using h, h'⟩
      obtain ⟨w2, h2, hwf2, hobj2, hcell2⟩ :=
        ih f w1 (ms ++ [(a, vs)]) (some s) as' hwf1 hrest1 hdisj1 hsup1
          hnd'.2 hfresh1 hk' (by simpa using hf)
      refine ⟨w2, ?_, ?_, ?_, ?_⟩
      · show copyLoop this (f + 1) w (some s) = _
        simp only [copyLoop, hcs, h1, hcs1]
        exact h2
      · simpa [contents] using hwf2
      · intro o ho
        rw [hobj2 o ho, hobj1 o ho]
      · intro x hx hxm
        have hxa : x ≠ a := fun e => hx (by simp [e])
        have hxas : x ∉ as' := fun hmem => hx (by simp [hmem])
        rw [hcell2 x hxas (by simp [hxm, hxa]), hcell1 x hxa hxm]

/-- The loop of `size()` never returns less than it started with, and returns
more when it starts at a node. -/
theorem sizeLoop_ge (w : World α) (fuel : Nat) (p : Ptr) (count r : Int) (w' : World α)
    (h : sizeLoop w fuel p count = .done r w') : count ≤ r ∧ (p ≠ none → count < r) := by
  induction fuel generalizing p count with
  | zero => simp [sizeLoop] at h
  | succ f ih =>
    cases p with
    | none =>
      simp only [sizeLoop, Res.done.injEq] at h
      exact ⟨by omega, fun hp => absurd rfl hp⟩
    | some a =>
      simp only [sizeLoop] at h
      split at h
      · cases h
      · split at h
        · cases h
        · have := (ih _ _ h).1
          exact ⟨by omega, fun _ => by omega⟩

/-- `popHead` on a deque with two or more nodes drops the first node and keeps
`tail`. -/
theorem popHead_tail (w : World α) (this : Nat) (ns : List (Nat × α))
    (hwf : WF w this ns) (h2 : 2 ≤ ns.length) :
    ∃ w', popHead w this = .done () w' ∧ WF w' this ns.tail ∧
      contents ns.tail = (contents ns).tail ∧ (w'.obj this).tail = (w.obj this).tail := by
  match ns, hwf, h2 with
  | [], _, h2 => simp at h2
  | [_], _, h2 => simp at h2
  | (h, vh) :: (s, vs) :: rest, hwf, _ =>
    obtain ⟨w', h1, hwf', _⟩ := popHead_spec w this h vh s vs rest hwf
    refine ⟨w', h1, hwf', by simp [contents], ?_⟩
    rw [hwf'.tail_eq, hwf.tail_eq]
    rfl

/-- `popTail` on a deque with two or more nodes drops the last node and keeps
`head`. -/
theorem popTail_dropLast (w : World α) (this : Nat) (ns : List (Nat × α))
    (hwf : WF w this ns) (h2 : 2 ≤ ns.length) :
    ∃ w', popTail w this = .done () w' ∧ WF w' this ns.dropLast ∧
      contents ns.dropLast = (contents ns).dropLast ∧
      (w'.obj this).head = (w.obj this).head := by
  rcases List.eq_nil_or_concat ns with hnil | ⟨l1, ⟨t, vt⟩, hn⟩
  · subst hnil
    simp at h2
  · rw [List.concat_eq_append] at hn
    rcases List.eq_nil_or_concat l1 with hnil | ⟨init, ⟨p, vp⟩, hl⟩
    · subst hnil
      subst hn
      simp at h2
    · rw [List.concat_eq_append] at hl
      subst hl
      subst hn
      obtain ⟨w', h1, hwf', _⟩ := popTail_spec w this init p vp t vt hwf
      have hd : (init ++ [(p, vp)] ++ [(t, vt)]).dropLast = init ++ [(p, vp)] := by
        simp [List.dropLast_append_of_ne_nil]
      rw [hd]
      refine ⟨w', h1, hwf', ?_, ?_⟩
      · simp [contents, List.dropLast_append_of_ne_nil]
      · rw [hwf'.head_eq, hwf.head_eq, firstOf_append_single]
        cases init with
        | nil => rfl
        | cons y ys => obtain ⟨b, u⟩ := y; rfl

theorem Links.fwd {c : Nat → Option (elem α)} {prev : Ptr} {ns : List (Nat × α)}
    (h : Links c prev ns none) : Fwd c (firstOf ns none) ns := by
  induction ns generalizing prev with
  | nil => rfl
  | cons y ys ih =>
    obtain ⟨a, v⟩ := y
    obtain ⟨ha, hrest⟩ := h
    exact ⟨rfl, _, ha, rfl, ih hrest⟩

theorem Links.next_prev {c : Nat → Option (elem α)} {prev : Ptr} {ns : List (Nat × α)}
    (h : Links c prev ns none) {n : Nat} {e : elem α} {m : Nat}
    (hn : n ∈ ns.map Prod.fst) (he : c n = some e) (hm : e.next = some m) :
    ∃ em, c m = some em ∧ em.prev = some n := by
  induction ns generalizing prev with
  | nil => simp at hn
  | cons y ys ih =>
    obtain ⟨a, v⟩ := y
    obtain ⟨ha, hrest⟩ := h
    simp only [List.map_cons, List.mem_cons] at hn
    by_cases hna : n = a
    · subst hna
      rw [ha] at he
      cases he
      cases ys with
      | nil => simp [firstOf] at hm
      | cons z zs =>
        obtain ⟨b, u⟩ := z
        have hb : b = m := by simpa [firstOf] using hm
        subst hb
        exact ⟨_, hrest.1, rfl⟩
    · rcases hn with hn | hn
      · exact absurd hn hna
      · exact ih hrest hn

theorem Links.prev_next {c : Nat → Option (elem α)} {prev nxt : Ptr} {ns : List (Nat × α)}
    (h : Links c prev ns nxt)
    (hp : ∀ m, prev = some m → ∃ em, c m = some em ∧ em.next = firstOf ns nxt)
    {n : Nat} {e : elem α} {m : Nat}
    (hn : n ∈ ns.map Prod.fst) (he : c n = some e) (hm : e.prev = some m) :
    ∃ em, c m = some em ∧ em.next = some n := by
  induction ns generalizing prev with
  | nil => simp at hn
  | cons y ys ih =>
    obtain ⟨a, v⟩ := y
    obtain ⟨ha, hrest⟩ := h
    simp only [List.map_cons, List.mem_cons] at hn
    by_cases hna : n = a
    · subst hna
      rw [ha] at he
      cases he
      exact hp m hm
    · rcases hn with hn | hn
      · exact absurd hn hna
      · refine ih hrest ?_ hn
        intro m' hm'
        cases hm'
        exact ⟨_, ha, rfl⟩

/-- A forward chain whose nodes satisfy `n.next.prev == n`, and whose first node
has the `prev`-link `prev`, is linked in both directions. -/
theorem Fwd.links {c : Nat → Option (elem α)} {p prev : Ptr} {ns : List (Nat × α)}
    (h : Fwd c p ns)
    (hnp : ∀ n e m, n ∈ ns.map Prod.fst → c n = some e → e.next = some m →
      ∃ em, c m = some em ∧ em.prev = some n)
    (hp : ∀ a e, p = some a → c a = some e → e.prev = prev) :
    p = firstOf ns none ∧ Links c prev ns none := by
  induction ns generalizing p prev with
  | nil => exact ⟨h, trivial⟩
  | cons y ys ih =>
    obtain ⟨a, v⟩ := y
    obtain ⟨hpa, e, hca, hdata, hrest⟩ := h
    have hprev : e.prev = prev := hp a e hpa hca
    have hnp' : ∀ n e' m, n ∈ ys.map Prod.fst → c n = some e' → e'.next = some m →
        ∃ em, c m = some em ∧ em.prev = some n :=
      fun n e' m hn => hnp n e' m (by
        simp only [List.map_cons, List.mem_cons]
        exact Or.inr hn)
    have hp' : ∀ b eb, e.next = some b → c b = some eb → eb.prev = some a := by
      intro b eb hb hcb
      obtain ⟨em, h1, h2⟩ := hnp a e b (by simp) hca hb
      rw [hcb] at h1
      cases h1
      exact h2
    obtain ⟨h1, h2⟩ := ih hrest hnp' hp'
    refine ⟨hpa, ?_, h2⟩
    rw [hca]
    cases e
    simp_all

theorem lastOf_ne_nil {ns : List (Nat × α)} {t : Nat}
    (h : lastOf ns none = some t) : ns ≠ [] := by
  intro hnil
  subst hnil
  simp [lastOf] at h

/-- The linkage invariant of the specification is well-formedness. -/
theorem linkage_iff_wf (w : World α) (this : Nat) (ns : List (Nat × α)) :
    Linkage w this ns ↔ WF w this ns := by
  constructor
  · intro h
    obtain ⟨h1, h2⟩ := Fwd.links h.chain h.next_prev
      (fun a e ha hc => h.head_prev a e ha hc)
    exact ⟨h1, h.tail_last, h2, h.acyclic⟩
  · intro h
    refine ⟨?_, h.tail_eq, ?_, ?_, ?_, ?_, h.nodup⟩
    · rw [h.head_eq]
      exact h.links.fwd
    · intro a e ha hc
      rw [h.head_eq] at ha
      cases ns with
      | nil => simp [firstOf] at ha
      | cons y ys =>
        obtain ⟨b, u⟩ := y
        have hb : b = a := by simpa [firstOf] using ha
        subst hb
        have := h.links.1
        rw [this] at hc
        cases hc
        rfl
    · intro t e ht hc
      rw [h.tail_eq] at ht
      obtain ⟨t', e', h1, _, h3, h4⟩ := h.links.last_cell (lastOf_ne_nil ht)
      rw [ht] at h1
      cases h1
      rw [hc] at h3
      cases h3
      exact h4
    · intro n e m hn he hm
      exact h.links.next_prev hn he hm
    · intro n e m hn he hm
      exact h.links.prev_next (fun m' hm' => by cases hm') hn he hm

/-- The invariant only depends on the blocks and the deque objects. -/
theorem Inv.same {w w' : World α} {ids : List Nat} {nodes : Nat → List (Nat × α)}
    (h : Inv w ids nodes) (hc : w'.cell = w.cell) (ho : w'.obj = w.obj) : Inv w' ids nodes :=
  ⟨fun o hm => (h.wf o hm).transfer (by rw [ho]) (fun x _ => by rw [hc]), h.sep⟩

/-- A newly constructed empty object joins the invariant. -/
theorem Inv.add_empty {w : World α} {ids : List Nat} {nodes : Nat → List (Nat × α)}
    (h : Inv w ids nodes) (o : Nat) (ho : o ∉ ids) :
    Inv { w with obj := Function.update w.obj o ⟨none, none⟩ } (o :: ids)
      (Function.update nodes o []) := by
  have hne : ∀ p, p ∈ ids → p ≠ o := fun p hp e => ho (e ▸ hp)
  constructor
  · intro p hp
    by_cases hpo : p = o
    · subst hpo
      rw [Function.update_same]
      exact ⟨by simp [firstOf], by simp [lastOf], trivial, by simp⟩
    · have hp' : p ∈ ids := by
        rcases List.mem_cons.mp hp with e | e
        · exact absurd e hpo
        · exact e
      rw [Function.update_noteq hpo]
      exact (h.wf p hp').transfer (by simp [Function.update_noteq hpo]) (fun _ _ => rfl)
  · intro p hp q hq hpq x hx
    by_cases hpo : p = o
    · subst hpo
      simp at hx
    · by_cases hqo : q = o
      · subst hqo
        simp
      · have hp' : p ∈ ids := by
          rcases List.mem_cons.mp hp with e | e
          · exact absurd e hpo
          · exact e
        have hq' : q ∈ ids := by
          rcases List.mem_cons.mp hq with e | e
          · exact absurd e hqo
          · exact e
        rw [Function.update_noteq hpo] at hx
        rw [Function.update_noteq hqo]
        exact h.sep p hp' q hq' hpq x hx

/-- An operation on one object that changes no other object and no live block
outside the object's own chain, and whose new nodes are old nodes of the object
or blocks that were not live, keeps the invariant. -/
theorem Inv.update_local {w w' : World α} {ids : List Nat} {nodes : Nat → List (Nat × α)}
    (h : Inv w ids nodes) (c : Nat) (ns' : List (Nat × α))
    (hwf : WF w' c ns') (hobj : ∀ o, o ≠ c → w'.obj o = w.obj o)
    (hcell : ∀ x, x ∉ (nodes c).map Prod.fst → w.cell x ≠ none → w'.cell x = w.cell x)
    (hnew : ∀ x, x ∈ ns'.map Prod.fst → x ∈ (nodes c).map Prod.fst ∨ w.cell x = none) :
    c ∈ ids → Inv w' ids (Function.update nodes c ns') := by
  intro hc
  constructor
  · intro p hp
    by_cases hpc : p = c
    · subst hpc
      rw [Function.update_same]
      exact hwf
    · rw [Function.update_noteq hpc]
      refine (h.wf p hp).transfer (hobj p hpc) (fun x hx => ?_)
      exact hcell x (fun hx' => h.sep p hp c hc hpc x hx hx') ((h.wf p hp).links.live hx)
  · intro p hp q hq hpq x hx hx'
    by_cases hpc : p = c
    · subst hpc
      rw [Function.update_same] at hx
      rw [Function.update_noteq (fun e => hpq e.symm)] at hx'
      rcases hnew x hx with h1 | h1
      · exact h.sep p hp q hq hpq x h1 hx'
      · exact (h.wf q hq).links.live hx' h1
    · rw [Function.update_noteq hpc] at hx
      by_cases hqc : q = c
      · subst hqc
        rw [Function.update_same] at hx'
        rcases hnew x hx' with h1 | h1
        · exact h.sep p hp q hq hpq x hx h1
        · exact (h.wf p hp).links.live hx h1
      · rw [Function.update_noteq hqc] at hx'
        exact h.sep p hp q hq hpq x hx hx'

/-- The four assignments of a move into an empty object keep the invariant: the
destination takes over the nodes of the source, the source has none. -/
theorem Inv.moveEnds {w : World α} {ids : List Nat} {nodes : Nat → List (Nat × α)}
    (h : Inv w ids nodes) (c e : Nat) (hc : c ∈ ids) (he : e ∈ ids) (hce : c ≠ e)
    (hempty : nodes c = []) :
    Inv (moveEnds w c e) ids (Function.update (Function.update nodes c (nodes e)) e []) := by
  obtain ⟨m1, m2, m3, m4, _⟩ := moveEnds_spec w c e hce
  have hec : e ≠ c := fun x => hce x.symm
  constructor
  · intro p hp
    by_cases hpe : p = e
    · subst hpe
      rw [Function.update_same]
      exact ⟨by rw [m2]; rfl, by rw [m2]; rfl, trivial, by simp⟩
    · rw [Function.update_noteq hpe]
      by_cases hpc : p = c
      · subst hpc
        rw [Function.update_same]
        have hwe := h.wf e he
        exact ⟨by rw [m1]; exact hwe.head_eq, by rw [m1]; exact hwe.tail_eq,
          by rw [m4]; exact hwe.links, hwe.nodup⟩
      · rw [Function.update_noteq hpc]
        exact (h.wf p hp).transfer (m3 p hpc hpe) (fun x _ => by rw [m4])
  · intro p hp q hq hpq x hx hx'
    by_cases hpe : p = e
    · subst hpe
      simp at hx
    · by_cases hqe : q = e
      · subst hqe
        simp at hx'
      · rw [Function.update_noteq hpe] at hx
        rw [Function.update_noteq hqe] at hx'
        by_cases hpc : p = c
        · subst hpc
          rw [Function.update_same] at hx
          rw [Function.update_noteq (fun e' => hpq e'.symm)] at hx'
          exact h.sep e he q hq (fun e' => hqe e'.symm) x hx hx'
        · rw [Function.update_noteq hpc] at hx
          by_cases hqc : q = c
          · subst hqc
            rw [Function.update_same] at hx'
            exact h.sep p hp e he hpe x hx hx'
          · rw [Function.update_noteq hqc] at hx'
            exact h.sep p hp q hq hpq x hx hx'

/-- A behaving allocator, cut to the `n` allocations an operation may ask for:
either `n` fresh blocks, or fewer followed by a failure. -/
theorem Sane.split {cell : Nat → Option (elem α)} {sup : List Ptr} (h : Sane cell sup)
    (n : Nat) :
    ∃ (as : List Nat) (tl : List Ptr), sup = as.map some ++ tl ∧ as.Nodup ∧
      (∀ a ∈ as, cell a = none) ∧
      (as.length = n ∨ (as.length < n ∧ failsNext tl = true)) := by
  obtain ⟨as, tl, h1, h2, h3, h4⟩ := h
  by_cases hn : n ≤ as.length
  · refine ⟨as.take n, (as.drop n).map some ++ tl, ?_, ?_, ?_, Or.inl ?_⟩
    · rw [h1, ← List.append_assoc, ← List.map_append, List.take_append_drop]
    · exact h2.sublist (List.take_sublist n as)
    · intro a ha
      exact h3 a (List.mem_of_mem_take ha)
    · simp [hn]
  · exact ⟨as, tl, h1, h2, h3, Or.inr ⟨by omega, h4⟩⟩

/-- More fuel does not change what the loop of `clear()` returns. -/
theorem clearLoop_mono (this : Nat) (f : Nat) (w w' : World α)
    (h : clearLoop this f w = .done () w') : clearLoop this (f + 1) w = .done () w' := by
  induction f generalizing w with
  | zero => simp [clearLoop] at h
  | succ f ih =>
    rw [clearLoop] at h ⊢
    cases hhd : (w.obj this).head with
    | none =>
      simp only [hhd] at h ⊢
      exact h
    | some hd =>
      cases he : w.cell hd with
      | none => simp [hhd, he] at h
      | some e =>
        simp only [hhd, he, memFree] at h ⊢
        exact ih _ h

theorem clearLoop_mono_le (this : Nat) (f g : Nat) (w w' : World α) (hfg : f ≤ g)
    (h : clearLoop this f w = .done () w') : clearLoop this g w = .done () w' := by
  induction hfg with
  | refl => exact h
  | step _ ih => exact clearLoop_mono this _ w w' ih

/-- More fuel does not change what the copy loop returns. -/
theorem copyLoop_mono (this : Nat) (f : Nat) (w w' : World α) (p : Ptr)
    (h : copyLoop this f w p = .done () w') : copyLoop this (f + 1) w p = .done () w' := by
  induction f generalizing w p with
  | zero => simp [copyLoop] at h
  | succ f ih =>
    cases p with
    | none =>
      simp only [copyLoop] at h ⊢
      exact h
    | some a =>
      rw [copyLoop] at h ⊢
      cases he : w.cell a with
      | none => simp [he] at h
      | some e =>
        simp only [he] at h ⊢
        cases hp : pushTail w this e.data with
        | done u w1 =>
          simp only [hp] at h ⊢
          cases he1 : w1.cell a with
          | none => simp [he1] at h
          | some e1 =>
            simp only [he1] at h ⊢
            exact ih _ _ h
        | thrown n w1 =>
          simp only [hp] at h ⊢
          exact h
        | undef => simp [hp] at h
        | timeout => simp [hp] at h

theorem copyLoop_mono_le (this : Nat) (f g : Nat) (w w' : World α) (p : Ptr) (hfg : f ≤ g)
    (h : copyLoop this f w p = .done () w') : copyLoop this g w p = .done () w' := by
  induction hfg with
  | refl => exact h
  | step _ ih => exact copyLoop_mono this _ w w' p ih

/-- A `pushHead` whose allocation fails throws `-1` and changes neither a block
nor a deque object. -/
theorem pushHead_fails (w : World α) (this : Nat) (v : α) (hfail : failsNext w.supply = true) :
    ∃ w', pushHead w this v = .thrown (-1) w' ∧ w'.cell = w.cell ∧ w'.obj = w.obj := by
  cases hsup : w.supply with
  | nil => exact ⟨w, by simp [pushHead, memMalloc, hsup], rfl, rfl⟩
  | cons r rest =>
    cases r with
    | none =>
      exact ⟨{ w with supply := rest }, by simp only [pushHead, memMalloc, hsup], rfl, rfl⟩
    | some a => simp [hsup, failsNext] at hfail

/-- The loop of `clear()`, whenever it returns, keeps the invariant and leaves
the object without nodes. -/
theorem Inv.clear_step {w w' : World α} {ids : List Nat} {nodes : Nat → List (Nat × α)}
    (h : Inv w ids nodes) (o : Nat) (ho : o ∈ ids) (fuel : Nat)
    (hrun : clearLoop o fuel w = .done () w') :
    Inv w' ids (Function.update nodes o []) ∧ w'.supply = w.supply := by
  have hwf := h.wf o ho
  obtain ⟨w2, c1, c2, c3, _, c5, c6⟩ :=
    clearLoop_spec o (nodes o) (max fuel ((nodes o).length + 1)) w none hwf.head_eq hwf.links
      hwf.nodup (by omega)
  have := clearLoop_mono_le o fuel (max fuel ((nodes o).length + 1)) w w'
    (Nat.le_max_left _ _) hrun
  rw [c1] at this
  cases this
  refine ⟨h.update_local o [] ⟨by rw [c2]; rfl, by rw [c2]; rfl, trivial, by simp⟩ c3
    (fun x hx _ => c5 x hx) (by simp) ho, c6⟩

/-- The copy loop into an object without nodes, whenever it returns, keeps the
invariant. -/
theorem Inv.copy_step {w w' : World α} {ids : List Nat} {nodes : Nat → List (Nat × α)}
    (h : Inv w ids nodes) (o d : Nat) (ho : o ∈ ids) (hd : d ∈ ids)
    (hempty : nodes o = []) (hsane : Sane w.cell w.supply) (fuel : Nat)
    (hrun : copyLoop o fuel w (w.obj d).head = .done () w') :
    ∃ nodes', Inv w' ids nodes' := by
  have hwo := h.wf o ho
  rw [hempty] at hwo
  have hwd := h.wf d hd
  obtain ⟨as, tl, s1, s2, s3, s4⟩ := hsane.split (nodes d).length
  obtain ⟨w2, g1, g2, g3, g4⟩ :=
    copyLoop_gen o (nodes d) (max fuel ((nodes d).length + 1)) w [] none as tl hwo hwd.links
      (by simp) s1 s2 s3 s4 (by omega)
  have := copyLoop_mono_le o fuel (max fuel ((nodes d).length + 1)) w w' _
    (Nat.le_max_left _ _) hrun
  rw [hwd.head_eq, g1] at this
  cases this
  refine ⟨_, h.update_local o (as.zip (contents (nodes d))) (by simpa using g2) g3 ?_ ?_ ho⟩
  · intro x _ hlive
    exact g4 x (fun hx => hlive (s3 x hx)) (by simp)
  · intro x hx
    exact Or.inr (s3 x (mem_of_mem_zip_fst hx))

/-- The loop of the initializer list constructor on an object without nodes
keeps the invariant. -/
theorem Inv.init_step {w w' : World α} {ids : List Nat} {nodes : Nat → List (Nat × α)}
    (h : Inv w ids nodes) (o : Nat) (ho : o ∈ ids)
    (hempty : nodes o = []) (hsane : Sane w.cell w.supply) (elems : List α)
    (hrun : initLoop o w elems = .done () w') :
    ∃ nodes', Inv w' ids nodes' := by
  have hwo := h.wf o ho
  rw [hempty] at hwo
  obtain ⟨as, tl, s1, s2, s3, s4⟩ := hsane.split elems.length
  obtain ⟨w2, g1, g2, g3, g4⟩ := initLoop_gen o elems w [] as tl hwo s1 s2 s3 s4
  rw [g1] at hrun
  cases hrun
  refine ⟨_, h.update_local o (as.zip elems) (by simpa using g2) g3 ?_ ?_ ho⟩
  · intro x _ hlive
    exact g4 x (fun hx => hlive (s3 x hx)) (by simp)
  · intro x hx
    exact Or.inr (s3 x (mem_of_mem_zip_fst hx))

/-- `pushHead`, whether it returns or throws, keeps the invariant. -/
theorem Inv.pushHead_step {w w' : World α} {ids : List Nat} {nodes : Nat → List (Nat × α)}
    (h : Inv w ids nodes) (o : Nat) (ho : o ∈ ids) (hsane : Sane w.cell w.supply)
    (v : α) (n : Int)
    (hrun : pushHead w o v = .done () w' ∨ pushHead w o v = .thrown n w') :
    ∃ nodes', Inv w' ids nodes' := by
  obtain ⟨as, tl, s1, s2, s3, s4⟩ := hsane.split 1
  rcases s4 with s4 | ⟨s4, s5⟩
  · match as, s1, s3, s4 with
    | [a], s1, s3, _ =>
      obtain ⟨w2, g1, g2, _, g4, g5⟩ :=
        pushHead_spec w o v (nodes o) a tl (h.wf o ho) (by simpa using s1) (s3 a (by simp))
      rw [g1] at hrun
      rcases hrun with e | e
      · cases e
        refine ⟨_, h.update_local o _ g2 g4 ?_ ?_ ho⟩
        · intro x hx hlive
          exact g5 x (fun e => hlive (e ▸ s3 a (by simp))) hx
        · intro x hx
          simp only [List.map_cons, List.mem_cons] at hx
          rcases hx with hx | hx
          · exact Or.inr (hx ▸ s3 a (by simp))
          · exact Or.inl hx
      · cases e
  · have has : as = [] := List.length_eq_zero.mp (by omega)
    subst has
    obtain ⟨w2, g1, g2, g3⟩ := pushHead_fails w o v (by simpa [s1] using s5)
    rw [g1] at hrun
    rcases hrun with e | e
    · cases e
    · cases e
      exact ⟨nodes, h.same g2 g3⟩

/-- `pushTail`, whether it returns or throws, keeps the invariant. -/
theorem Inv.pushTail_step {w w' : World α} {ids : List Nat} {nodes : Nat → List (Nat × α)}
    (h : Inv w ids nodes) (o : Nat) (ho : o ∈ ids) (hsane : Sane w.cell w.supply)
    (v : α) (n : Int)
    (hrun : pushTail w o v = .done () w' ∨ pushTail w o v = .thrown n w') :
    ∃ nodes', Inv w' ids nodes' := by
  obtain ⟨as, tl, s1, s2, s3, s4⟩ := hsane.split 1
  rcases s4 with s4 | ⟨s4, s5⟩
  · match as, s1, s3, s4 with
    | [a], s1, s3, _ =>
      obtain ⟨w2, g1, g2, _, g4, g5⟩ :=
        pushTail_spec w o v (nodes o) a tl (h.wf o ho) (by simpa using s1) (s3 a (by simp))
      rw [g1] at hrun
      rcases hrun with e | e
      · cases e
        refine ⟨_, h.update_local o _ g2 g4 ?_ ?_ ho⟩
        · intro x hx hlive
          exact g5 x (fun e => hlive (e ▸ s3 a (by simp))) hx
        · intro x hx
          simp only [List.map_append, List.map_cons, List.map_nil, List.mem_append,
            List.mem_singleton] at hx
          rcases hx with hx | hx
          · exact Or.inl hx
          · exact Or.inr (hx ▸ s3 a (by simp))
      · cases e
  · have has : as = [] := List.length_eq_zero.mp (by omega)
    subst has
    obtain ⟨w2, g1, g2, g3⟩ := pushTail_fails w o v (by simpa [s1] using s5)
    rw [g1] at hrun
    rcases hrun with e | e
    · cases e
    · cases e
      exact ⟨nodes, h.same g2 g3⟩

/-- `popHead`, whenever it returns, keeps the invariant. -/
theorem Inv.popHead_step {w w' : World α} {ids : List Nat} {nodes : Nat → List (Nat × α)}
    (h : Inv w ids nodes) (o : Nat) (ho : o ∈ ids) (hrun : popHead w o = .done () w') :
    ∃ nodes', Inv w' ids nodes' := by
  have hwf := h.wf o ho
  by_cases h2 : 2 ≤ (nodes o).length
  · match hn : nodes o, hwf, h2 with
    | [], _, h2 => simp at h2
    | [_], _, h2 => simp at h2
    | (a, v) :: (b, u) :: rest, hwf, _ =>
      obtain ⟨w2, g1, g2, _, g4, g5, _⟩ := popHead_spec w o a v b u rest hwf
      rw [g1] at hrun
      cases hrun
      refine ⟨_, h.update_local o _ g2 g4 ?_ ?_ ho⟩
      · intro x hx _
        rw [hn] at hx
        exact g5 x (fun e => hx (by simp [e])) (fun e => hx (by simp [e]))
      · intro x hx
        rw [hn]
        simp only [List.map_cons, List.mem_cons] at hx ⊢
        exact Or.inl (Or.inr hx)
  · exfalso
    match hn : nodes o, hwf, h2 with
    | [], hwf, _ =>
      rw [popHead_empty w o hwf] at hrun
      cases hrun
    | [(a, v)], hwf, _ =>
      rw [popHead_single w o a v hwf] at hrun
      cases hrun
    | _ :: _ :: _, _, h2 => simp at h2

/-- `popTail`, whenever it returns, keeps the invariant. -/
theorem Inv.popTail_step {w w' : World α} {ids : List Nat} {nodes : Nat → List (Nat × α)}
    (h : Inv w ids nodes) (o : Nat) (ho : o ∈ ids) (hrun : popTail w o = .done () w') :
    ∃ nodes', Inv w' ids nodes' := by
  have hwf := h.wf o ho
  rcases List.eq_nil_or_concat (nodes o) with hnil | ⟨l1, ⟨t, vt⟩, hn⟩
  · rw [hnil] at hwf
    rw [popTail_empty w o hwf] at hrun
    cases hrun
  · rw [List.concat_eq_append] at hn
    rcases List.eq_nil_or_concat l1 with hnil | ⟨init, ⟨p, vp⟩, hl⟩
    · subst hnil
      rw [hn] at hwf
      rw [popTail_single w o t vt hwf] at hrun
      cases hrun
    · rw [List.concat_eq_append] at hl
      subst hl
      rw [hn] at hwf
      obtain ⟨w2, g1, g2, _, g4, g5, _⟩ := popTail_spec w o init p vp t vt hwf
      rw [g1] at hrun
      cases hrun
      refine ⟨_, h.update_local o _ g2 g4 ?_ ?_ ho⟩
      · intro x hx _
        rw [hn] at hx
        exact g5 x (fun e => hx (by simp [e])) (fun e => hx (by simp [e]))
      · intro x hx
        rw [hn, List.map_append, List.mem_append]
        exact Or.inl (Or.inl hx)

theorem popHead_ne_thrown (w w' : World α) (this : Nat) (n : Int) :
    popHead w this ≠ .thrown n w' := by
  intro h
  unfold popHead at h
  cases h1 : (w.obj this).head with
  | none => simp [h1] at h
  | some hd =>
    cases h2 : w.cell hd with
    | none => simp [h1, h2] at h
    | some e =>
      cases h3 : e.next with
      | none => simp [h1, h2, h3, memFree] at h
      | some t =>
        cases h4 : Function.update w.cell hd none t with
        | none => simp [h1, h2, h3, memFree, h4] at h
        | some et => simp [h1, h2, h3, memFree, h4] at h

theorem popTail_ne_thrown (w w' : World α) (this : Nat) (n : Int) :
    popTail w this ≠ .thrown n w' := by
  intro h
  unfold popTail at h
  cases h1 : (w.obj this).tail with
  | none => simp [h1] at h
  | some tl =>
    cases h2 : w.cell tl with
    | none => simp [h1, h2] at h
    | some e =>
      cases h3 : e.prev with
      | none => simp [h1, h2, h3, memFree] at h
      | some t =>
        cases h4 : Function.update w.cell tl none t with
        | none => simp [h1, h2, h3, memFree, h4] at h
        | some et => simp [h1, h2, h3, memFree, h4] at h

theorem clearLoop_ne_thrown (this : Nat) (f : Nat) (w w' : World α) (n : Int) :
    clearLoop this f w ≠ .thrown n w' := by
  induction f generalizing w with
  | zero => simp [clearLoop]
  | succ f ih =>
    intro h
    rw [clearLoop] at h
    cases hhd : (w.obj this).head with
    | none => simp [hhd] at h
    | some hd =>
      cases he : w.cell hd with
      | none => simp [hhd, he] at h
      | some e =>
        simp only [hhd, he, memFree] at h
        exact ih _ h

/-- Every reachable state satisfies the invariant: all constructed deque objects
are well formed and no two of them share a node. -/
theorem Reach.inv {w : World α} {ids : List Nat} (h : Reach w ids) :
    ∃ nodes, Inv w ids nodes := by
  induction h with
  | start w => exact ⟨fun _ => [], ⟨fun o ho => by simp at ho, fun o ho => by simp at ho⟩⟩
  | resupply sup _ ih =>
    obtain ⟨nodes, hi⟩ := ih
    exact ⟨nodes, hi.same rfl rfl⟩
  | @construct w w' ids o _ ho hrun ih =>
    obtain ⟨nodes, hi⟩ := ih
    simp only [ctorDefault, Res.done.injEq, true_and] at hrun
    subst hrun
    exact ⟨_, hi.add_empty o ho⟩
  | @constructList w w' ids o elems _ ho hsane hrun ih =>
    obtain ⟨nodes, hi⟩ := ih
    exact (hi.add_empty o ho).init_step o (by simp) (by simp) hsane elems hrun
  | @constructCopy w w' ids o d fuel _ ho hd hsane hrun ih =>
    obtain ⟨nodes, hi⟩ := ih
    exact (hi.add_empty o ho).copy_step o d (by simp) (by simp [hd]) (by simp) hsane fuel hrun
  | @constructMove w w' ids o d _ ho hd hrun ih =>
    obtain ⟨nodes, hi⟩ := ih
    simp only [ctorMove, Res.done.injEq, true_and] at hrun
    subst hrun
    have hod : o ≠ d := fun e => ho (e ▸ hd)
    exact ⟨_, (hi.add_empty o ho).moveEnds o d (by simp) (by simp [hd]) hod (by simp)⟩
  | @endOp w w' ids o fuel op n _ ho hend hsane hrun ih =>
    obtain ⟨nodes, hi⟩ := ih
    cases op with
    | pushHead v => exact hi.pushHead_step o ho hsane v n hrun
    | pushHeadMove v => exact hi.pushHead_step o ho hsane v n hrun
    | pushTail v => exact hi.pushTail_step o ho hsane v n hrun
    | pushTailMove v => exact hi.pushTail_step o ho hsane v n hrun
    | popHead =>
      rcases hrun with e | e
      · exact hi.popHead_step o ho e
      · exact absurd e (popHead_ne_thrown w w' o n)
    | popTail =>
      rcases hrun with e | e
      · exact hi.popTail_step o ho e
      · exact absurd e (popTail_ne_thrown w w' o n)
    | clear =>
      rcases hrun with e | e
      · exact ⟨_, (hi.clear_step o ho fuel e).1⟩
      · exact absurd e (clearLoop_ne_thrown o fuel w w' n)
    | moveInto e => simp [Op.isEnd] at hend
    | moveAssignInto e => simp [Op.isEnd] at hend
    | moveAssignFrom e => simp [Op.isEnd] at hend
  | @copyAssign w w' ids o d fuel _ ho hd hsane hrun ih =>
    obtain ⟨nodes, hi⟩ := ih
    by_cases hdo : d = o
    · simp only [assignCopy, if_pos hdo, Res.done.injEq, true_and] at hrun
      subst hrun
      exact ⟨nodes, hi⟩
    · simp only [assignCopy, if_neg hdo] at hrun
      cases hc : clear fuel w o with
      | done u w1 =>
        simp only [hc] at hrun
        obtain ⟨hi1, _⟩ := hi.clear_step o ho fuel hc
        exact hi1.copy_step o d ho hd (by simp) (hsane w1 hc) fuel hrun
      | thrown m w1 => simp [hc] at hrun
      | undef => simp [hc] at hrun
      | timeout => simp [hc] at hrun
  | @moveAssign w w' ids o d fuel _ ho hd hrun ih =>
    obtain ⟨nodes, hi⟩ := ih
    by_cases hdo : d = o
    · simp only [assignMove, if_pos hdo, Res.done.injEq, true_and] at hrun
      subst hrun
      exact ⟨nodes, hi⟩
    · simp only [assignMove, if_neg hdo] at hrun
      cases hc : clear fuel w o with
      | done u w1 =>
        simp only [hc, Res.done.injEq, true_and] at hrun
        subst hrun
        obtain ⟨hi1, _⟩ := hi.clear_step o ho fuel hc
        exact ⟨_, hi1.moveEnds o d ho hd (fun e => hdo e.symm) (by simp)⟩
      | thrown m w1 => simp [hc] at hrun
      | undef => simp [hc] at hrun
      | timeout => simp [hc] at hrun

theorem lastOf_cons_some (y : Nat × α) (ys : List (Nat × α)) (p : Ptr) :
    ∃ t, lastOf (y :: ys) p = some t := by
  induction ys generalizing y p with
  | nil => obtain ⟨a, v⟩ := y; exact ⟨a, rfl⟩
  | cons z zs ih => obtain ⟨a, v⟩ := y; exact ih z (some a)

/-- On a well-formed deque `head`, `tail` and the list of nodes are empty
together. -/
theorem WF.ends_agree {w : World α} {o : Nat} {ns : List (Nat × α)} (h : WF w o ns) :
    ((w.obj o).head = none ↔ (w.obj o).tail = none) ∧
    ((w.obj o).tail = none ↔ ns = []) ∧ ((w.obj o).head = none ↔ ns = []) := by
  have hh : (w.obj o).head = none ↔ ns = [] := by
    rw [h.head_eq]
    cases ns with
    | nil => simp [firstOf]
    | cons y ys => obtain ⟨a, v⟩ := y; simp [firstOf]
  have ht : (w.obj o).tail = none ↔ ns = [] := by
    rw [h.tail_eq]
    cases ns with
    | nil => simp [lastOf]
    | cons y ys =>
      obtain ⟨t, ht⟩ := lastOf_cons_some y ys none
      simp [ht]
  exact ⟨hh.trans ht.symm, ht, hh⟩

/-- On a well-formed deque with two or more nodes `head` and `tail` are
different nodes. -/
theorem WF.head_ne_tail {w : World α} {o : Nat} {x y : Nat × α} {rest : List (Nat × α)}
    (h : WF w o (x :: y :: rest)) : (w.obj o).head ≠ (w.obj o).tail := by
  obtain ⟨a, v⟩ := x
  obtain ⟨hx, hrest⟩ := h.links
  obtain ⟨t, _, h1, h2, _, _⟩ := hrest.last_cell (by simp)
  have hnd := (List.nodup_cons.mp h.nodup).1
  rw [h.head_eq, h.tail_eq]
  show some a ≠ lastOf (y :: rest) (some a)
  rw [h1]
  intro e
  cases e
  exact hnd h2

end Lemmas

section Claims

variable {α : Type}

/-- C1: on a well-formed deque with nodes `ns`, when `memMalloc` returns a fresh
block `a`, `pushTail(v)` (copy and move overload alike) returns normally and
leaves the deque well formed with the nodes `ns` followed by the new node
`(a, v)`: its contents are the old contents followed by `v`, and `tail` is the
new node. -/
theorem pushTail_appends (w : World α) (this : Nat) (v : α) (ns : List (Nat × α))
    (a : Nat) (rest : List Ptr)
    (hwf : WF w this ns) (hs : w.supply = some a :: rest) (hfresh : w.cell a = none) :
    ∃ w', pushTail w this v = .done () w' ∧ pushTailMove w this v = .done () w' ∧
      WF w' this (ns ++ [(a, v)]) ∧ contents (ns ++ [(a, v)]) = contents ns ++ [v] ∧
      (w'.obj this).tail = some a := by
  obtain ⟨w', h1, h2, _⟩ := pushTail_spec w this v ns a rest hwf hs hfresh
  refine ⟨w', h1, h1, h2, by simp [contents], ?_⟩
  rw [h2.tail_eq, lastOf_append_single]

theorem pushTail_appends_witness :
    ∃ w', pushTail exThree 0 9 = .done () w' ∧ pushTailMove exThree 0 9 = .done () w' ∧
      WF w' 0 (exThreeNodes ++ [(4, 9)]) ∧
      contents (exThreeNodes ++ [(4, 9)]) = contents exThreeNodes ++ [9] ∧
      (w'.obj 0).tail = some 4 :=
  pushTail_appends exThree 0 9 exThreeNodes 4 [some 5, some 6, none] (by decide) rfl rfl

/-- C2: on a well-formed deque with nodes `ns`, when `memMalloc` returns a fresh
block `a`, `pushHead(v)` (copy and move overload alike) returns normally and
leaves the deque well formed with the new node `(a, v)` followed by `ns`: its
contents are `v` followed by the old contents, and `head` is the new node. -/
theorem pushHead_prepends (w : World α) (this : Nat) (v : α) (ns : List (Nat × α))
    (a : Nat) (rest : List Ptr)
    (hwf : WF w this ns) (hs : w.supply = some a :: rest) (hfresh : w.cell a = none) :
    ∃ w', pushHead w this v = .done () w' ∧ pushHeadMove w this v = .done () w' ∧
      WF w' this ((a, v) :: ns) ∧ contents ((a, v) :: ns) = v :: contents ns ∧
      (w'.obj this).head = some a := by
  obtain ⟨w', h1, h2, _⟩ := pushHead_spec w this v ns a rest hwf hs hfresh
  exact ⟨w', h1, h1, h2, rfl, h2.head_eq⟩

theorem pushHead_prepends_witness :
    ∃ w', pushHead exThree 0 9 = .done () w' ∧ pushHeadMove exThree 0 9 = .done () w' ∧
      WF w' 0 ((4, 9) :: exThreeNodes) ∧
      contents ((4, 9) :: exThreeNodes) = 9 :: contents exThreeNodes ∧
      (w'.obj 0).head = some 4 :=
  pushHead_prepends exThree 0 9 exThreeNodes 4 [some 5, some 6, none] (by decide) rfl rfl

/-- C3 (code defect): the claim promises that `popHead()` completes on every
non-empty well-formed deque, also when the head is the only node.  On a deque
with exactly one node the code frees that node and then executes
`tmp->prev = nullptr` with `tmp == nullptr`: the call is undefined, it does not
return, and no state with an empty deque is produced. -/
theorem popHead_single_undefined (w : World α) (this : Nat) (a : Nat) (v : α)
    (hwf : WF w this [(a, v)]) :
    popHead w this = .undef ∧ ¬ ∃ w', popHead w this = .done () w' ∧ WF w' this [] := by
  have h := popHead_single w this a v hwf
  refine ⟨h, ?_⟩
  rintro ⟨w', h', _⟩
  rw [h] at h'
  cases h'

theorem popHead_single_undefined_witness :
    popHead exOne 0 = .undef ∧ ¬ ∃ w', popHead exOne 0 = .done () w' ∧ WF w' 0 [] :=
  popHead_single_undefined exOne 0 1 7 (by decide)

/-- C4 (code defect): the claim promises that `popTail()` completes on every
non-empty well-formed deque, also when the tail is the only node.  On a deque
with exactly one node the code frees that node and then executes
`tmp->next = nullptr` with `tmp == nullptr`: the call is undefined, it does not
return, and no state with an empty deque is produced. -/
theorem popTail_single_undefined (w : World α) (this : Nat) (a : Nat) (v : α)
    (hwf : WF w this [(a, v)]) :
    popTail w this = .undef ∧ ¬ ∃ w', popTail w this = .done () w' ∧ WF w' this [] := by
  have h := popTail_single w this a v hwf
  refine ⟨h, ?_⟩
  rintro ⟨w', h', _⟩
  rw [h] at h'
  cases h'

theorem popTail_single_undefined_witness :
    popTail exOne 0 = .undef ∧ ¬ ∃ w', popTail exOne 0 = .done () w' ∧ WF w' 0 [] :=
  popTail_single_undefined exOne 0 1 7 (by decide)

/-- C5 (code defect): one push followed by one pop on an empty deque, with a
successful allocation and no pop of an empty deque, has balance `0`, so the
claim promises `size() = 0` afterwards.  The pop of the only node is undefined
(for every choice of the two ends), so the sequence never reaches a state in
which `size()` could be called. -/
theorem push_pop_undefined (w : World α) (this : Nat) (v : α) (a : Nat) (rest : List Ptr)
    (hwf : WF w this []) (hs : w.supply = some a :: rest) (hfresh : w.cell a = none) :
    calls this w [.pushHead v, .popHead] = .undef ∧
    calls this w [.pushHead v, .popTail] = .undef ∧
    calls this w [.pushTail v, .popHead] = .undef ∧
    calls this w [.pushTail v, .popTail] = .undef ∧
    balance [Call.pushHead v, Call.popHead] = 0 := by
  obtain ⟨w1, h1, hwf1, _⟩ := pushHead_spec w this v [] a rest hwf hs hfresh
  obtain ⟨w2, h2, hwf2, _⟩ := pushTail_spec w this v [] a rest hwf hs hfresh
  have hwf2' : WF w2 this [(a, v)] := hwf2
  refine ⟨?_, ?_, ?_, ?_, rfl⟩
  · simp only [calls, call, h1, popHead_single w1 this a v hwf1]
  · simp only [calls, call, h1, popTail_single w1 this a v hwf1]
  · simp only [calls, call, h2, popHead_single w2 this a v hwf2']
  · simp only [calls, call, h2, popTail_single w2 this a v hwf2']

theorem push_pop_undefined_witness :
    calls 0 exEmpty [.pushHead 42, .popHead] = .undef ∧
    calls 0 exEmpty [.pushHead 42, .popTail] = .undef ∧
    calls 0 exEmpty [.pushTail 42, .popHead] = .undef ∧
    calls 0 exEmpty [.pushTail 42, .popTail] = .undef ∧
    balance [Call.pushHead (42 : Int), Call.popHead] = 0 :=
  push_pop_undefined exEmpty 0 42 1 [some 2, some 3, none] (by decide) rfl rfl

/-- C6: on a well-formed deque with nodes `ns`, with fuel for the traversal,
`str()` returns `"< "`, then each element's rendering followed by one space in
head-to-tail order, then `">"`, and the state is the one it was called in.  An
empty deque renders as `"< >"`, and a deque of `int` with contents `1 2 3`
renders as `"< 1 2 3 >"`. -/
theorem str_renders (render : α → String) (fuel : Nat) (w : World α) (this : Nat)
    (ns : List (Nat × α)) (hwf : WF w this ns) (hf : ns.length < fuel)
    (wi : World Int) (o : Nat) (ms : List (Nat × Int)) (hwi : WF wi o ms)
    (hc : contents ms = [1, 2, 3]) :
    str render fuel w this = .done (renderSpec render (contents ns)) w ∧
    (ns = [] → str render fuel w this = .done "< >" w) ∧
    str renderInt (fuel + 3) wi o = .done "< 1 2 3 >" wi := by
  have key : ∀ (β : Type) (r : β → String) (f : Nat) (u : World β) (o : Nat)
      (ms : List (Nat × β)), WF u o ms → ms.length < f →
      str r f u o = .done (renderSpec r (contents ms)) u := by
    intro β r f u o ms hu hlt
    unfold str
    rw [hu.head_eq]
    exact strLoop_spec r u f ms none "< " hu.links hlt
  refine ⟨key α render fuel w this ns hwf hf, ?_, ?_⟩
  · intro hnil
    rw [key α render fuel w this ns hwf hf, hnil]
    rfl
  · have hlen : ms.length = 3 := by
      have := congrArg List.length hc
      simpa [contents] using this
    rw [key Int renderInt (fuel + 3) wi o ms hwi (by omega), hc]
    rfl

theorem str_renders_witness :
    str renderInt 1 exEmpty 0 = .done (renderSpec renderInt (contents [])) exEmpty ∧
    (([] : List (Nat × Int)) = [] → str renderInt 1 exEmpty 0 = .done "< >" exEmpty) ∧
    str renderInt (1 + 3) exThree 0 = .done "< 1 2 3 >" exThree :=
  str_renders renderInt 1 exEmpty 0 [] (by decide) (by decide) exThree 0 exThreeNodes
    (by decide) (by decide)

/-- C7: on a non-empty well-formed deque whose contents start with `x` and end
with `y`, `getHead()` returns `x` and `getTail()` returns `y`, each in the state
it was called in. -/
theorem get_ends (w : World α) (this : Nat) (ns : List (Nat × α)) (x y : α)
    (hwf : WF w this ns) (hx : (contents ns).head? = some x)
    (hy : (contents ns).getLast? = some y) :
    getHead w this = .done x w ∧ getTail w this = .done y w := by
  constructor
  · cases ns with
    | nil => simp [contents] at hx
    | cons n rest =>
      obtain ⟨a, v⟩ := n
      have hv : v = x := by simpa [contents] using hx
      have hhd : (w.obj this).head = some a := hwf.head_eq
      have hc : w.cell a = some ⟨v, firstOf rest none, none⟩ := hwf.links.1
      simp [getHead, hhd, hc, hv]
  · rcases List.eq_nil_or_concat ns with hnil | ⟨init, n, hn⟩
    · subst hnil
      simp [contents] at hy
    · obtain ⟨t, v⟩ := n
      rw [List.concat_eq_append] at hn
      subst hn
      have hv : v = y := by simpa [contents] using hy
      have htl : (w.obj this).tail = some t := by
        rw [hwf.tail_eq, lastOf_append_single]
      have hc := (Links.snoc_iff.mp hwf.links).2
      simp [getTail, htl, hc, hv]

theorem get_ends_witness :
    getHead exThree 0 = .done 1 exThree ∧ getTail exThree 0 = .done 3 exThree :=
  get_ends exThree 0 exThreeNodes 1 3 (by decide) (by decide) (by decide)

/-- C8: when `memMalloc` hands out one fresh block per element, the initializer
list constructor returns normally and the constructed deque is well formed with
one node per element, its contents being exactly the list, in order; for the
empty list it is the empty deque. -/
theorem ctorInitList_contents (w : World α) (this : Nat) (s : List α) (as : List Nat)
    (rest : List Ptr) (hs : w.supply = as.map some ++ rest)
    (hlen : as.length = s.length) (hnd : as.Nodup)
    (hfresh : ∀ a ∈ as, w.cell a = none) :
    ∃ w', ctorInitList w this s = .done () w' ∧ WF w' this (as.zip s) ∧
      contents (as.zip s) = s ∧ (s = [] → WF w' this []) := by
  have hwf0 : WF { w with obj := Function.update w.obj this ⟨none, none⟩ } this [] :=
    ⟨by simp [firstOf], by simp [lastOf], trivial, by simp⟩
  obtain ⟨w', h1, h2, _⟩ := initLoop_spec this s _ [] as rest hwf0 hs hlen hnd hfresh
  refine ⟨w', h1, by simpa using h2, ?_, ?_⟩
  · simp only [contents]
    rw [← List.unzip_snd, List.unzip_zip_right (le_of_eq hlen.symm)]
  · intro hnil
    subst hnil
    simpa using h2

theorem ctorInitList_contents_witness :
    ∃ w', ctorInitList exEmpty 0 [1, 2, 3] = .done () w' ∧
      WF w' 0 ([1, 2, 3].zip [1, 2, 3]) ∧
      contents ([1, 2, 3].zip ([1, 2, 3] : List Int)) = [1, 2, 3] ∧
      (([1, 2, 3] : List Int) = [] → WF w' 0 []) :=
  ctorInitList_contents exEmpty 0 [1, 2, 3] [1, 2, 3] [none] rfl rfl (by decide)
    (by intro a _; rfl)

/-- C9: let `other` be a well-formed deque with nodes `ns`, let `memMalloc` hand
out one block per element, and let the fuel exceed the lengths involved.  Copy
construction of a different object `this` (blocks fresh) returns normally with
`this` well formed, its contents equal to the source's, and the source still
well formed with the same nodes, so that `str()` returns the same string for
both.  Copy assignment to a different well-formed object `this2` with arbitrary
previous nodes `cs` (blocks fresh or taken from the nodes just freed) does the
same. -/
theorem copy_yields_equal (render : α → String) (fuel : Nat) (w : World α)
    (this other : Nat) (ns : List (Nat × α)) (as : List Nat) (rest : List Ptr)
    (hne : this ≠ other) (hsrc : WF w other ns)
    (hs : w.supply = as.map some ++ rest) (hlen : as.length = ns.length) (hnd : as.Nodup)
    (hfresh : ∀ a ∈ as, w.cell a = none) (hf : ns.length < fuel)
    (w2 : World α) (this2 other2 : Nat) (ns2 cs : List (Nat × α)) (as2 : List Nat)
    (rest2 : List Ptr) (hne2 : this2 ≠ other2) (hsrc2 : WF w2 other2 ns2)
    (hdst2 : WF w2 this2 cs) (hdisj2 : ∀ x, x ∈ cs.map Prod.fst → x ∉ ns2.map Prod.fst)
    (hs2 : w2.supply = as2.map some ++ rest2) (hlen2 : as2.length = ns2.length)
    (hnd2 : as2.Nodup) (hfresh2 : ∀ a ∈ as2, w2.cell a = none ∨ a ∈ cs.map Prod.fst)
    (hf2 : ns2.length < fuel) (hfc2 : cs.length < fuel) :
    (∃ w', ctorCopy fuel w this other = .done () w' ∧
      WF w' this (as.zip (contents ns)) ∧
      contents (as.zip (contents ns)) = contents ns ∧ WF w' other ns ∧
      str render fuel w' this = .done (renderSpec render (contents ns)) w' ∧
      str render fuel w' other = .done (renderSpec render (contents ns)) w') ∧
    (∃ w', assignCopy fuel w2 this2 other2 = .done () w' ∧
      WF w' this2 (as2.zip (contents ns2)) ∧
      contents (as2.zip (contents ns2)) = contents ns2 ∧ WF w' other2 ns2 ∧
      str render fuel w' this2 = .done (renderSpec render (contents ns2)) w' ∧
      str render fuel w' other2 = .done (renderSpec render (contents ns2)) w') := by
  obtain ⟨w', h1, h2, _⟩ := ctorCopy_spec fuel w this other ns as rest hne hsrc hs hlen hnd
    hfresh hf
  obtain ⟨w2', k1, k2, _⟩ := assignCopy_spec fuel w2 this2 other2 ns2 cs as2 rest2 hne2 hsrc2
    hdst2 hdisj2 hs2 hlen2 hnd2 hfresh2 hf2 hfc2
  have hc := contents_zip as (contents ns) (by simpa [contents] using hlen)
  have hc2 := contents_zip as2 (contents ns2) (by simpa [contents] using hlen2)
  have hl : (as.zip (contents ns)).length < fuel := by
    simp only [List.length_zip, contents, List.length_map]
    omega
  have hl2 : (as2.zip (contents ns2)).length < fuel := by
    simp only [List.length_zip, contents, List.length_map]
    omega
  refine ⟨⟨w', h1, h2.left, hc, h2.right, ?_, str_spec render fuel w' other ns h2.right hf⟩,
    ⟨w2', k1, k2.left, hc2, k2.right, ?_, str_spec render fuel w2' other2 ns2 k2.right hf2⟩⟩
  · rw [str_spec render fuel w' this _ h2.left hl, hc]
  · rw [str_spec render fuel w2' this2 _ k2.left hl2, hc2]

theorem copy_yields_equal_witness :
    (∃ w', ctorCopy 4 exThree 1 0 = .done () w' ∧
      WF w' 1 ([4, 5, 6].zip (contents exThreeNodes)) ∧
      contents ([4, 5, 6].zip (contents exThreeNodes)) = contents exThreeNodes ∧
      WF w' 0 exThreeNodes ∧
      str renderInt 4 w' 1 = .done (renderSpec renderInt (contents exThreeNodes)) w' ∧
      str renderInt 4 w' 0 = .done (renderSpec renderInt (contents exThreeNodes)) w') ∧
    (∃ w', assignCopy 4 exTwo 1 0 = .done () w' ∧
      WF w' 1 ([5, 6, 7].zip (contents exThreeNodes)) ∧
      contents ([5, 6, 7].zip (contents exThreeNodes)) = contents exThreeNodes ∧
      WF w' 0 exThreeNodes ∧
      str renderInt 4 w' 1 = .done (renderSpec renderInt (contents exThreeNodes)) w' ∧
      str renderInt 4 w' 0 = .done (renderSpec renderInt (contents exThreeNodes)) w') :=
  copy_yields_equal renderInt 4 exThree 1 0 exThreeNodes [4, 5, 6] [none] (by decide)
    (by decide) rfl rfl (by decide) (by decide) (by decide)
    exTwo 1 0 exThreeNodes exTwoNodes [5, 6, 7] [some 8, none] (by decide) (by decide)
    (by decide) (by decide) rfl rfl (by decide) (by decide) (by decide) (by decide)

/-- Independence of a copy, outside the defect of the pops.  Let `w1` be the
state after copy-constructing `c` from the well-formed deque `d`, or after
copy-assigning `d` to the well-formed deque `c`, every allocation succeeding.
Then in `w1` the two objects are separated: both are well formed and no node of
one is a node of the other.  And in every state `w2` in which `c` and `d` are
separated, each of `pushHead`, `pushTail` (copy and move overloads), `popHead`,
`popTail`, `clear` and the moves to or from a third object, applied to one of
the two, either returns (or throws `-1` when the allocation fails) in a state
where the other is the same object with the same blocks and the same nodes, and
where the two are separated again, or it is a pop of a deque with at most one
node, which is undefined. -/
theorem copy_independent (fuel : Nat) (w : World α) (c d : Nat) (ns : List (Nat × α))
    (as : List Nat) (rest : List Ptr) (w1 : World α)
    (hne : c ≠ d) (hsrc : WF w d ns)
    (hs : w.supply = as.map some ++ rest) (hlen : as.length = ns.length) (hnd : as.Nodup)
    (hf : ns.length < fuel)
    (hcopy : ((∀ a ∈ as, w.cell a = none) ∧ ctorCopy fuel w c d = .done () w1) ∨
      (∃ cs : List (Nat × α), WF w c cs ∧
        (∀ x, x ∈ cs.map Prod.fst → x ∉ ns.map Prod.fst) ∧ cs.length < fuel ∧
        (∀ a ∈ as, w.cell a = none ∨ a ∈ cs.map Prod.fst) ∧
        assignCopy fuel w c d = .done () w1))
    (fuel2 : Nat) (w2 : World α) (xs ys : List (Nat × α)) (hsep : Sep w2 c d xs ys)
    (op : Op α) (hpc : OpPre fuel2 w2 d xs ys op) (hpd : OpPre fuel2 w2 c ys xs op) :
    Sep w1 c d (as.zip (contents ns)) ns ∧
    (LeavesAlone (applyOp fuel2 w2 c op) w2 c d ys ∨
      (applyOp fuel2 w2 c op = .undef ∧ xs.length ≤ 1 ∧ (op = .popHead ∨ op = .popTail))) ∧
    (LeavesAlone (applyOp fuel2 w2 d op) w2 d c xs ∨
      (applyOp fuel2 w2 d op = .undef ∧ ys.length ≤ 1 ∧ (op = .popHead ∨ op = .popTail))) := by
  refine ⟨?_, op_frame hsep fuel2 op hpc, op_frame hsep.symm fuel2 op hpd⟩
  rcases hcopy with ⟨hfresh, hrun⟩ | ⟨cs, hdst, hdisj, hfc, hfresh, hrun⟩
  · obtain ⟨w', h1, h2, _⟩ := ctorCopy_spec fuel w c d ns as rest hne hsrc hs hlen hnd hfresh hf
    rw [h1] at hrun
    cases hrun
    exact h2
  · obtain ⟨w', h1, h2, _⟩ := assignCopy_spec fuel w c d ns cs as rest hne hsrc hdst hdisj hs
      hlen hnd hfresh hf hfc
    rw [h1] at hrun
    cases hrun
    exact h2

theorem copy_independent_witness :
    Sep exCopied 1 0 ([4, 5, 6].zip (contents exThreeNodes)) exThreeNodes ∧
    (LeavesAlone (applyOp 4 exCopied 1 (Op.popHead : Op Int)) exCopied 1 0 exThreeNodes ∨
      (applyOp 4 exCopied 1 (Op.popHead : Op Int) = .undef ∧
        [((4 : Nat), (1 : Int)), (5, 2), (6, 3)].length ≤ 1 ∧
        ((Op.popHead : Op Int) = .popHead ∨ (Op.popHead : Op Int) = .popTail))) ∧
    (LeavesAlone (applyOp 4 exCopied 0 (Op.popHead : Op Int)) exCopied 0 1
        [(4, 1), (5, 2), (6, 3)] ∨
      (applyOp 4 exCopied 0 (Op.popHead : Op Int) = .undef ∧ exThreeNodes.length ≤ 1 ∧
        ((Op.popHead : Op Int) = .popHead ∨ (Op.popHead : Op Int) = .popTail))) :=
  copy_independent 4 exThree 1 0 exThreeNodes [4, 5, 6] [none] exCopied (by decide)
    (by decide) rfl rfl (by decide) (by decide) (Or.inl ⟨by decide, rfl⟩)
    4 exCopied [(4, 1), (5, 2), (6, 3)] exThreeNodes (by decide) Op.popHead trivial trivial

/-- C11: let `other` be a well-formed deque with nodes `ns`.  Move construction
of a different object `thisC` returns normally; the new object is well formed
with the very nodes `ns`, so its contents and rendering are those `other` had
before, and `other` is empty: `head` and `tail` are `nullptr` and it renders as `"< >"`.
Move assignment to a different well-formed object `this` with arbitrary previous
nodes `cs` (sharing no node with `other`) does the same. -/
theorem move_transfers (render : α → String) (fuel : Nat) (w : World α)
    (thisC this other : Nat) (ns cs : List (Nat × α))
    (hneC : thisC ≠ other) (hsep : Sep w this other cs ns)
    (hf : ns.length < fuel) (hfc : cs.length < fuel) :
    str render fuel w other = .done (renderSpec render (contents ns)) w ∧
    (∃ w', ctorMove w thisC other = .done () w' ∧ WF w' thisC ns ∧
      str render fuel w' thisC = .done (renderSpec render (contents ns)) w' ∧
      WF w' other [] ∧ w'.obj other = ⟨none, none⟩ ∧
      str render fuel w' other = .done "< >" w') ∧
    (∃ w', assignMove fuel w this other = .done () w' ∧ WF w' this ns ∧
      str render fuel w' this = .done (renderSpec render (contents ns)) w' ∧
      WF w' other [] ∧ w'.obj other = ⟨none, none⟩ ∧
      str render fuel w' other = .done "< >" w') := by
  have hpos : 0 < fuel := by omega
  have hempty : ∀ (u : World α) (o : Nat), WF u o [] → str render fuel u o = .done "< >" u := by
    intro u o hu
    rw [str_spec render fuel u o [] hu hpos]
    rfl
  obtain ⟨w', h1, h2, h3, h4, h5, _⟩ := ctorMove_spec w thisC other ns hneC hsep.right
  obtain ⟨w2, k1, k2, k3, k4, _⟩ := assignMove_spec fuel w this other cs ns hsep hfc
  exact ⟨str_spec render fuel w other ns hsep.right hf,
    ⟨w', h1, h2, str_spec render fuel w' thisC ns h2 hf, h3, h4, hempty w' other h3⟩,
    ⟨w2, k1, k2, str_spec render fuel w2 this ns k2 hf, k3, k4, hempty w2 other k3⟩⟩

theorem move_transfers_witness :
    str renderInt 4 exTwo 0 = .done (renderSpec renderInt (contents exThreeNodes)) exTwo ∧
    (∃ w', ctorMove exTwo 2 0 = .done () w' ∧ WF w' 2 exThreeNodes ∧
      str renderInt 4 w' 2 = .done (renderSpec renderInt (contents exThreeNodes)) w' ∧
      WF w' 0 [] ∧ w'.obj 0 = ⟨none, none⟩ ∧
      str renderInt 4 w' 0 = .done "< >" w') ∧
    (∃ w', assignMove 4 exTwo 1 0 = .done () w' ∧ WF w' 1 exThreeNodes ∧
      str renderInt 4 w' 1 = .done (renderSpec renderInt (contents exThreeNodes)) w' ∧
      WF w' 0 [] ∧ w'.obj 0 = ⟨none, none⟩ ∧
      str renderInt 4 w' 0 = .done "< >" w') :=
  move_transfers renderInt 4 exTwo 2 1 0 exThreeNodes exTwoNodes (by decide) (by decide)
    (by decide) (by decide)

/-- C12: on a well-formed deque, with fuel for the traversal, `clear()` returns
normally and leaves the deque empty: `head` and `tail` are `nullptr`,
`isEmpty()` returns `true`, `size()` returns `0` and `str()` returns `"< >"`.
On a deque that is already empty `clear()` leaves the state as it is. -/
theorem clear_empties (render : α → String) (fuel : Nat) (w : World α) (this : Nat)
    (ns : List (Nat × α)) (hwf : WF w this ns) (hf : ns.length < fuel) :
    ∃ w', clear fuel w this = .done () w' ∧ WF w' this [] ∧
      (w'.obj this).head = none ∧ (w'.obj this).tail = none ∧
      isEmpty w' this = .done true w' ∧ size fuel w' this = .done 0 w' ∧
      str render fuel w' this = .done "< >" w' ∧ (ns = [] → w' = w) := by
  obtain ⟨w', c1, c2, c3, c4, c5, c6⟩ :=
    clearLoop_spec this ns fuel w none hwf.head_eq hwf.links hwf.nodup hf
  have hpos : 0 < fuel := by omega
  have hwf' : WF w' this [] := ⟨by rw [c2]; rfl, by rw [c2]; rfl, trivial, by simp⟩
  refine ⟨w', c1, hwf', by rw [c2], by rw [c2], ?_, ?_, ?_, ?_⟩
  · simp [isEmpty, c2]
  · have := size_spec fuel w' this [] hwf' hpos (by simp [INT_MAX])
    simpa using this
  · rw [str_spec render fuel w' this [] hwf' hpos]
    rfl
  · intro hnil
    subst hnil
    refine World.ext_of (funext (fun x => c5 x (by simp))) (funext (fun o => ?_)) c6
    by_cases ho : o = this
    · subst ho
      rw [c2]
      have h1 : (w.obj o).head = none := hwf.head_eq
      have h2 : (w.obj o).tail = none := hwf.tail_eq
      cases hd : w.obj o
      simp_all
    · exact c3 o ho

theorem clear_empties_witness :
    ∃ w', clear 4 exThree 0 = .done () w' ∧ WF w' 0 [] ∧
      (w'.obj 0).head = none ∧ (w'.obj 0).tail = none ∧
      isEmpty w' 0 = .done true w' ∧ size 4 w' 0 = .done 0 w' ∧
      str renderInt 4 w' 0 = .done "< >" w' ∧ (exThreeNodes = [] → w' = exThree) :=
  clear_empties renderInt 4 exThree 0 exThreeNodes (by decide) (by decide)

/-- C13: copy assignment and move assignment of a deque object to itself return
at once: the state afterwards is the state before, with the same `head`, `tail`,
blocks and supply of the allocator, so nothing is freed or allocated. -/
theorem self_assign_noop (fuel : Nat) (w : World α) (d : Nat) (ns : List (Nat × α))
    (hwf : WF w d ns) :
    assignCopy fuel w d d = .done () w ∧ assignMove fuel w d d = .done () w ∧
      WF w d ns := by
  refine ⟨?_, ?_, hwf⟩
  · simp [assignCopy]
  · simp [assignMove]

theorem self_assign_noop_witness :
    assignCopy 0 exThree 0 0 = .done () exThree ∧ assignMove 0 exThree 0 0 = .done () exThree ∧
      WF exThree 0 exThreeNodes :=
  self_assign_noop 0 exThree 0 exThreeNodes (by decide)

/-- C14: when `memMalloc` returns the failure indicator, `pushHead` and
`pushTail`, copy and move overloads alike, throw the `int` `-1`, and in the
state at the throw every block and every deque object is what it was before the
call, so a well-formed deque is still well formed with the same nodes. -/
theorem push_fails_unchanged (w : World α) (this : Nat) (v : α) (ns : List (Nat × α))
    (hwf : WF w this ns) (hfail : (memMalloc w).1 = none) :
    ∃ w', pushHead w this v = .thrown (-1) w' ∧ pushHeadMove w this v = .thrown (-1) w' ∧
      pushTail w this v = .thrown (-1) w' ∧ pushTailMove w this v = .thrown (-1) w' ∧
      w'.cell = w.cell ∧ w'.obj = w.obj ∧ WF w' this ns := by
  have hw : (memMalloc w).2.cell = w.cell ∧ (memMalloc w).2.obj = w.obj := by
    unfold memMalloc
    cases w.supply <;> exact ⟨rfl, rfl⟩
  have hp : memMalloc w = (none, (memMalloc w).2) := by
    rw [← hfail]
  refine ⟨(memMalloc w).2, ?_, ?_, ?_, ?_, hw.1, hw.2,
    hwf.transfer (by rw [hw.2]) (fun x _ => by rw [hw.1])⟩
  · unfold pushHead
    rw [hp]
  · unfold pushHeadMove
    rw [hp]
  · unfold pushTail
    rw [hp]
  · unfold pushTailMove
    rw [hp]

theorem push_fails_unchanged_witness :
    ∃ w', pushHead exCopied 0 9 = .thrown (-1) w' ∧ pushHeadMove exCopied 0 9 = .thrown (-1) w' ∧
      pushTail exCopied 0 9 = .thrown (-1) w' ∧ pushTailMove exCopied 0 9 = .thrown (-1) w' ∧
      w'.cell = exCopied.cell ∧ w'.obj = exCopied.obj ∧ WF w' 0 exThreeNodes :=
  push_fails_unchanged exCopied 0 9 exThreeNodes (by decide) (by decide)

/-- C15 (code defect): the claim asks that `popHead()`, `popTail()`, `getHead()`
and `getTail()` on an empty deque report an error instead of dereferencing
`nullptr`.  The code tests for the empty deque and writes a message to
`std::cerr`, but does not return: it goes on to read `head->next`, `tail->prev`,
`head->data` and `tail->data` through `nullptr`.  All four calls are undefined;
none returns and none throws. -/
theorem empty_misuse_undefined (w : World α) (this : Nat) (hwf : WF w this []) :
    popHead w this = .undef ∧ popTail w this = .undef ∧
      getHead w this = .undef ∧ getTail w this = .undef :=
  ⟨popHead_empty w this hwf, popTail_empty w this hwf, getHead_empty w this hwf,
    getTail_empty w this hwf⟩

theorem empty_misuse_undefined_witness :
    popHead exEmpty 0 = .undef ∧ popTail exEmpty 0 = .undef ∧
      getHead exEmpty 0 = .undef ∧ getTail exEmpty 0 = .undef :=
  empty_misuse_undefined exEmpty 0 (by decide)

/-- C17: on a well-formed deque with nodes `ns`, `isEmpty()` returns `true`
exactly when there is no node, and exactly when `size()` returns `0`; it returns
in the state it was called in. -/
theorem isEmpty_iff_zero (fuel : Nat) (w : World α) (this : Nat) (ns : List (Nat × α))
    (hwf : WF w this ns) (hpos : 0 < fuel) :
    isEmpty w this = .done ns.isEmpty w ∧
    (isEmpty w this = .done true w ↔ ns = []) ∧
    (isEmpty w this = .done true w ↔ size fuel w this = .done 0 w) := by
  have hval : isEmpty w this = .done ns.isEmpty w := by
    unfold isEmpty
    rw [hwf.head_eq]
    cases ns with
    | nil => rfl
    | cons y ys => obtain ⟨a, v⟩ := y; rfl
  have h1 : isEmpty w this = .done true w ↔ ns = [] := by
    rw [hval]
    cases ns with
    | nil => simp
    | cons y ys => simp
  have h2 : size fuel w this = .done 0 w ↔ ns = [] := by
    constructor
    · intro hsz
      cases ns with
      | nil => rfl
      | cons y ys =>
        obtain ⟨a, v⟩ := y
        unfold size at hsz
        rw [hwf.head_eq] at hsz
        have := (sizeLoop_ge w fuel (some a) 0 0 w hsz).2 (by simp)
        omega
    · intro hnil
      subst hnil
      have := size_spec fuel w this [] hwf hpos (by simp [INT_MAX])
      simpa using this
  exact ⟨hval, h1, h1.trans h2.symm⟩

theorem isEmpty_iff_zero_witness :
    isEmpty exThree 0 = .done exThreeNodes.isEmpty exThree ∧
    (isEmpty exThree 0 = .done true exThree ↔ exThreeNodes = []) ∧
    (isEmpty exThree 0 = .done true exThree ↔ size 4 exThree 0 = .done 0 exThree) :=
  isEmpty_iff_zero 4 exThree 0 exThreeNodes (by decide) (by decide)

/-- C19: on a well-formed deque with two or more nodes `popHead()` returns
normally, without a dereference of `nullptr`, and leaves the nodes without the
first one, `tail` being what it was; `popTail()` returns normally and leaves the
nodes without the last one, `head` being what it was.  So on a deque of `int`
with contents `666 42 1 9`, `popHead()` followed by `popTail()` leaves the
contents `42 1`, for which `size()` returns `2` and `str()` returns
`"< 42 1 >"`. -/
theorem pop_two_or_more (fuel : Nat) (w : World α) (this : Nat) (ns : List (Nat × α))
    (hwf : WF w this ns) (h2 : 2 ≤ ns.length)
    (wi : World Int) (o : Nat) (ms : List (Nat × Int)) (hwi : WF wi o ms)
    (hc : contents ms = [666, 42, 1, 9]) (hf : 2 < fuel) :
    (∃ w', popHead w this = .done () w' ∧ WF w' this ns.tail ∧
      contents ns.tail = (contents ns).tail ∧ (w'.obj this).tail = (w.obj this).tail) ∧
    (∃ w', popTail w this = .done () w' ∧ WF w' this ns.dropLast ∧
      contents ns.dropLast = (contents ns).dropLast ∧
      (w'.obj this).head = (w.obj this).head) ∧
    (∃ w', calls o wi [.popHead, .popTail] = .done () w' ∧
      WF w' o ms.tail.dropLast ∧ contents ms.tail.dropLast = [42, 1] ∧
      size fuel w' o = .done 2 w' ∧ str renderInt fuel w' o = .done "< 42 1 >" w') := by
  refine ⟨popHead_tail w this ns hwf h2, popTail_dropLast w this ns hwf h2, ?_⟩
  have hlen : ms.length = 4 := by
    have := congrArg List.length hc
    simpa [contents] using this
  obtain ⟨w1, p1, p2, p3, _⟩ := popHead_tail wi o ms hwi (by omega)
  have hlen1 : ms.tail.length = 3 := by simp [hlen]
  obtain ⟨w2, q1, q2, q3, _⟩ := popTail_dropLast w1 o ms.tail p2 (by omega)
  have hlen2 : ms.tail.dropLast.length = 2 := by simp [hlen1]
  have hc2 : contents ms.tail.dropLast = [42, 1] := by
    rw [q3, p3, hc]
    rfl
  refine ⟨w2, ?_, q2, hc2, ?_, ?_⟩
  · simp only [calls, call, p1, q1]
  · have := size_spec fuel w2 o _ q2 (by omega) (by rw [hlen2]; simp [INT_MAX])
    rw [this, hlen2]
    rfl
  · rw [str_spec renderInt fuel w2 o _ q2 (by omega), hc2]
    rfl

theorem pop_two_or_more_witness :
    (∃ w', popHead exThree 0 = .done () w' ∧ WF w' 0 exThreeNodes.tail ∧
      contents exThreeNodes.tail = (contents exThreeNodes).tail ∧
      (w'.obj 0).tail = (exThree.obj 0).tail) ∧
    (∃ w', popTail exThree 0 = .done () w' ∧ WF w' 0 exThreeNodes.dropLast ∧
      contents exThreeNodes.dropLast = (contents exThreeNodes).dropLast ∧
      (w'.obj 0).head = (exThree.obj 0).head) ∧
    (∃ w', calls 0 exFour [.popHead, .popTail] = .done () w' ∧
      WF w' 0 exFourNodes.tail.dropLast ∧ contents exFourNodes.tail.dropLast = [42, 1] ∧
      size 3 w' 0 = .done 2 w' ∧ str renderInt 3 w' 0 = .done "< 42 1 >" w') :=
  pop_two_or_more 3 exThree 0 exThreeNodes (by decide) (by decide) exFour 0 exFourNodes
    (by decide) (by decide) (by decide)

/-- C20: if the deque satisfies the linkage invariant of the specification with
nodes `ns` (also when there is none) and `memMalloc` returns a fresh block `a`,
then `pushHead(v)` and `pushTail(v)`, copy and move overloads alike, return
normally and the invariant holds for the enlarged chain: `(a, v)` followed by
`ns` after `pushHead`, `ns` followed by `(a, v)` after `pushTail`. -/
theorem push_keeps_linkage (w : World α) (this : Nat) (v : α) (ns : List (Nat × α))
    (a : Nat) (rest : List Ptr)
    (hl : Linkage w this ns) (hs : w.supply = some a :: rest) (hfresh : w.cell a = none) :
    (∃ w', pushHead w this v = .done () w' ∧ pushHeadMove w this v = .done () w' ∧
      Linkage w' this ((a, v) :: ns)) ∧
    (∃ w', pushTail w this v = .done () w' ∧ pushTailMove w this v = .done () w' ∧
      Linkage w' this (ns ++ [(a, v)])) := by
  have hwf := (linkage_iff_wf w this ns).mp hl
  obtain ⟨w1, h1, h2, _⟩ := pushHead_spec w this v ns a rest hwf hs hfresh
  obtain ⟨w2, k1, k2, _⟩ := pushTail_spec w this v ns a rest hwf hs hfresh
  exact ⟨⟨w1, h1, h1, (linkage_iff_wf w1 this _).mpr h2⟩,
    ⟨w2, k1, k1, (linkage_iff_wf w2 this _).mpr k2⟩⟩

theorem push_keeps_linkage_witness :
    (∃ w', pushHead exEmpty 0 42 = .done () w' ∧ pushHeadMove exEmpty 0 42 = .done () w' ∧
      Linkage w' 0 ((1, 42) :: [])) ∧
    (∃ w', pushTail exEmpty 0 42 = .done () w' ∧ pushTailMove exEmpty 0 42 = .done () w' ∧
      Linkage w' 0 ([] ++ [(1, 42)])) :=
  push_keeps_linkage exEmpty 0 42 [] 1 [some 2, some 3, none]
    ((linkage_iff_wf exEmpty 0 []).mpr (by decide)) rfl rfl

/-- The ends agree in every state that the operations produce.  In every state
reached from a state without deque objects by constructing objects (default,
initializer list, copy, move) and by calls of `pushHead`, `pushTail` that
return or throw and calls of `popHead`, `popTail`, `clear()`, copy assignment
and move assignment that return, every constructed deque object is well formed
with the nodes `ns` met by following `next`-links from `head`, and `head` is
`nullptr` if and only if `tail` is `nullptr` if and only if there is no node.
A pop of the only node does not return and so is no step here. -/
theorem reachable_ends_agree (w : World α) (ids : List Nat) (hr : Reach w ids) (o : Nat)
    (ho : o ∈ ids) :
    ∃ ns, WF w o ns ∧ Fwd w.cell (w.obj o).head ns ∧
      ((w.obj o).head = none ↔ (w.obj o).tail = none) ∧
      ((w.obj o).tail = none ↔ ns = []) ∧ ((w.obj o).head = none ↔ ns = []) := by
  obtain ⟨nodes, hi⟩ := hr.inv
  have hwf := hi.wf o ho
  refine ⟨nodes o, hwf, ?_, hwf.ends_agree⟩
  rw [hwf.head_eq]
  exact hwf.links.fwd

theorem reachable_ends_agree_witness :
    ∃ ns, WF exPushed 0 ns ∧ Fwd exPushed.cell (exPushed.obj 0).head ns ∧
      ((exPushed.obj 0).head = none ↔ (exPushed.obj 0).tail = none) ∧
      ((exPushed.obj 0).tail = none ↔ ns = []) ∧ ((exPushed.obj 0).head = none ↔ ns = []) :=
  reachable_ends_agree exPushed [0]
    (@Reach.endOp Int exBuilt exPushed [0] 0 0 (Op.pushHead 42) 0
      (@Reach.construct Int exEmpty exBuilt [] 0 (Reach.start exEmpty) (by decide) rfl)
      (by decide) rfl ⟨[1, 2, 3], [none], rfl, by decide, by decide, rfl⟩
      (Or.inl (show applyOp 0 exBuilt 0 (Op.pushHead 42) = .done () exPushed from rfl)))
    0 (by decide)

/-- C10 (code defect): the claim promises that after a copy every later
`popHead` or `popTail` on one of the two deques leaves the contents of the other
unchanged.  Copy-construct `c` from a well-formed deque `d` with exactly one
node, the allocation succeeding: the two are separated, each with one node.  A
pop of the copy then frees its only node and writes through `nullptr`; the call
is undefined, so it neither returns nor throws in a state in which the other
deque still has its contents. -/
theorem copy_then_pop_last_undefined (fuel : Nat) (w : World α) (c d : Nat) (a : Nat)
    (v : α) (b : Nat) (rest : List Ptr) (hne : c ≠ d) (hsrc : WF w d [(a, v)])
    (hs : w.supply = some b :: rest) (hfresh : w.cell b = none) (hf : 1 < fuel) :
    ∃ w1, ctorCopy fuel w c d = .done () w1 ∧ Sep w1 c d [(b, v)] [(a, v)] ∧
      applyOp fuel w1 c (Op.popHead : Op α) = .undef ∧
      applyOp fuel w1 c (Op.popTail : Op α) = .undef ∧
      ¬ LeavesAlone (applyOp fuel w1 c (Op.popHead : Op α)) w1 c d [(a, v)] ∧
      ¬ LeavesAlone (applyOp fuel w1 c (Op.popTail : Op α)) w1 c d [(a, v)] := by
  obtain ⟨w1, h1, h2, _⟩ := ctorCopy_spec fuel w c d [(a, v)] [b] rest hne hsrc
    (by simpa using hs) rfl (by simp) (by simpa using hfresh) (by simpa using hf)
  have hsep : Sep w1 c d [(b, v)] [(a, v)] := h2
  have hh : applyOp fuel w1 c (Op.popHead : Op α) = .undef := popHead_single w1 c b v hsep.left
  have ht : applyOp fuel w1 c (Op.popTail : Op α) = .undef := popTail_single w1 c b v hsep.left
  refine ⟨w1, h1, hsep, hh, ht, ?_, ?_⟩
  · rintro ⟨w2, hr, _⟩
    rw [hh] at hr
    rcases hr with e | e <;> cases e
  · rintro ⟨w2, hr, _⟩
    rw [ht] at hr
    rcases hr with e | e <;> cases e

theorem copy_then_pop_last_undefined_witness :
    ∃ w1, ctorCopy 2 exOne 1 0 = .done () w1 ∧ Sep w1 1 0 [(2, 7)] [(1, 7)] ∧
      applyOp 2 w1 1 (Op.popHead : Op Int) = .undef ∧
      applyOp 2 w1 1 (Op.popTail : Op Int) = .undef ∧
      ¬ LeavesAlone (applyOp 2 w1 1 (Op.popHead : Op Int)) w1 1 0 [(1, 7)] ∧
      ¬ LeavesAlone (applyOp 2 w1 1 (Op.popTail : Op Int)) w1 1 0 [(1, 7)] :=
  copy_then_pop_last_undefined 2 exOne 1 0 1 7 2 [none] (by decide) (by decide) rfl rfl
    (by decide)

/-- C18 (code defect): the claim counts `popHead` and `popTail` on a non-empty
deque among the steps and promises `head` and `tail` to be `nullptr` together
afterwards.  In a reachable state, take a constructed deque whose `head` and
`tail` are one and the same node, that is, a deque with exactly one element.
`popHead` and `popTail` on it free the node and then write through `nullptr`,
with no assignment to the other end before that: both calls are undefined, and
none returns in a state where `head` and `tail` are both `nullptr`. -/
theorem reachable_pop_last_undefined (w : World α) (ids : List Nat) (hr : Reach w ids)
    (o : Nat) (ho : o ∈ ids) (hne : (w.obj o).head ≠ none)
    (hsame : (w.obj o).head = (w.obj o).tail) :
    popHead w o = .undef ∧ popTail w o = .undef ∧
      ¬ ∃ w', (popHead w o = .done () w' ∨ popTail w o = .done () w') ∧
        (w'.obj o).head = none ∧ (w'.obj o).tail = none := by
  obtain ⟨nodes, hi⟩ := hr.inv
  have hwf := hi.wf o ho
  have key : popHead w o = .undef ∧ popTail w o = .undef := by
    match hn : nodes o, hwf with
    | [], hwf => exact absurd hwf.head_eq hne
    | [(a, v)], hwf => exact ⟨popHead_single w o a v hwf, popTail_single w o a v hwf⟩
    | _ :: _ :: _, hwf => exact absurd hsame hwf.head_ne_tail
  refine ⟨key.1, key.2, ?_⟩
  rintro ⟨w', hrun, _⟩
  rw [key.1, key.2] at hrun
  rcases hrun with e | e <;> cases e

theorem reachable_pop_last_undefined_witness :
    popHead exPushed 0 = .undef ∧ popTail exPushed 0 = .undef ∧
      ¬ ∃ w', (popHead exPushed 0 = .done () w' ∨ popTail exPushed 0 = .done () w') ∧
        (w'.obj 0).head = none ∧ (w'.obj 0).tail = none :=
  reachable_pop_last_undefined exPushed [0]
    (@Reach.endOp Int exBuilt exPushed [0] 0 0 (Op.pushHead 42) 0
      (@Reach.construct Int exEmpty exBuilt [] 0 (Reach.start exEmpty) (by decide) rfl)
      (by decide) rfl ⟨[1, 2, 3], [none], rfl, by decide, by decide, rfl⟩
      (Or.inl (show applyOp 0 exBuilt 0 (Op.pushHead 42) = .done () exPushed from rfl)))
    0 (by decide) (by decide) (by decide)

end Claims

end DequeModel
